import Mathlib

/-!
Verification development for the snyk-sca-validator repository.

The repository has two Python source files:
  * snyk_sca_validator.py       (streaming mode; namespace Main below)
  * snyk_sca_validator_core.py  (shared core classes; namespace Core below)

Python strings are embedded as lists of characters (abbrev Str), and the
Python string operations used by the source (startswith, endswith, split,
strip, replace, os.path.normpath and so on) are defined below with Python
semantics. HTTP traffic is embedded by passing the relevant responses, or a
response oracle, as explicit arguments to the functions that perform requests.
-/

/-- Python strings are modelled as lists of characters. -/
abbrev Str := List Char

namespace Py

/-- Python s.startswith(p), written startswith p s. -/
def startswith : Str → Str → Bool
  | [], _ => true
  | _ :: _, [] => false
  | p :: ps, c :: cs => p == c && startswith ps cs

/-- Python s.endswith(p), written endswith p s. -/
def endswith (p s : Str) : Bool := startswith p.reverse s.reverse

/-- Python substring containment, p in s, written containsSub p s. -/
def containsSub : Str → Str → Bool
  | p, [] => startswith p []
  | p, c :: cs => startswith p (c :: cs) || containsSub p cs

/-- Python single-character containment, c in s. -/
def containsChar (c : Char) (s : Str) : Bool := s.any (· == c)

/-- Helper for replaceAll on a nonempty pattern q :: qs: scan left to right
with a skip counter; at an occurrence emit the replacement and skip the rest
of the matched pattern, so scanning continues after the occurrence. -/
def replaceAllGo (q : Char) (qs r : Str) : Str → Nat → Str
  | [], _ => []
  | _ :: cs, n + 1 => replaceAllGo q qs r cs n
  | c :: cs, 0 =>
    if startswith (q :: qs) (c :: cs) then r ++ replaceAllGo q qs r cs qs.length
    else c :: replaceAllGo q qs r cs 0

/-- Python s.replace(p, r): replace every occurrence, scanning left to right.
The source never calls replace with an empty pattern, which Python treats
specially; an empty pattern is mapped to the identity here. -/
def replaceAll (p r s : Str) : Str :=
  match p with
  | [] => s
  | q :: qs => replaceAllGo q qs r s 0

/-- Python s.split(c) for a one-character separator. -/
def splitChar (c : Char) : Str → List Str
  | [] => [[]]
  | x :: xs =>
    if x == c then [] :: splitChar c xs
    else
      match splitChar c xs with
      | [] => [[x]]
      | r :: rs => (x :: r) :: rs

/-- Python c.join(parts) for a one-character separator. -/
def joinChar (c : Char) : List Str → Str
  | [] => []
  | [s] => s
  | s :: rest => s ++ c :: joinChar c rest

/-- Python s.strip(c) for a one-character strip set. -/
def stripChar (c : Char) (s : Str) : Str :=
  ((s.dropWhile (· == c)).reverse.dropWhile (· == c)).reverse

/-- The whitespace test used by Python str.strip() with no argument. -/
def isSpace (c : Char) : Bool :=
  c == ' ' || c == '\t' || c == '\n' || c == '\r' || c == '\x0b' || c == '\x0c'

/-- Python s.strip() with no argument (whitespace strip on both ends). -/
def stripWs (s : Str) : Str :=
  ((s.dropWhile isSpace).reverse.dropWhile isSpace).reverse

/-- Split at the first occurrence of a character: the piece strictly before
it and the piece from it on (empty if the character does not occur). -/
def breakAt (c : Char) : Str → Str × Str
  | [] => ([], [])
  | x :: xs =>
    if x == c then ([], x :: xs)
    else
      let p := breakAt c xs
      (x :: p.1, p.2)

/-- Python s.split(c, 1)[1] when c occurs in s: the text after the first
occurrence of the separator. -/
def afterChar (c : Char) (s : Str) : Str := (breakAt c s).2.tail

/-- Python s[:-n]: drop the last n characters. -/
def dropRightN (n : Nat) (s : Str) : Str := s.take (s.length - n)

/-- CPython posixpath.normpath, transcribed onto the embedded string type:
collapse empty and single-dot components, resolve dot-dot against a
previous component, keep leading dot-dot components, preserve up to two
initial slashes, and map an empty result to a single dot. -/
def normpath (path : Str) : Str :=
  if path == [] then ['.'] else
  let initialSlashes : Nat :=
    if startswith ['/'] path then
      if startswith ['/', '/'] path && !startswith ['/', '/', '/'] path then 2 else 1
    else 0
  let comps := splitChar '/' path
  let newComps := comps.foldl (fun acc comp =>
    if comp == [] || comp == ['.'] then acc
    else if comp != ['.', '.'] || (initialSlashes == 0 && acc.isEmpty) ||
        (!acc.isEmpty && acc.getLast? == some ['.', '.']) then acc ++ [comp]
    else if !acc.isEmpty then acc.dropLast else acc) []
  let p := List.replicate initialSlashes '/' ++ joinChar '/' newComps
  if p == [] then ['.'] else p

/-- posixpath.join for two arguments, the semantics of os.path.join used by
the source on POSIX: an absolute second argument replaces the first, and a
separator is inserted only when the first is nonempty and lacks one. -/
def posixJoin (a b : Str) : Str :=
  if startswith ['/'] b then b
  else if a == [] || endswith ['/'] a then a ++ b
  else a ++ '/' :: b

end Py

namespace Core

/-- Result dictionary of GitLabClient.parse_repo_url in
snyk_sca_validator_core.py: keys platform, host, owner, repo, url. -/
structure RepoInfo where
  platform : Str
  host : Str
  owner : Str
  repo : Str
  url : Str
deriving Repr, DecidableEq

/-- Model of urllib.parse.urlparse restricted to the inputs that reach the
HTTP branch of Core parse_repo_url: after the http normalization every web
URL begins with https, and only then is a netloc parsed; for strings without
that scheme prefix the whole input is the path component (queries and
fragments, which the tool never passes, are not modelled).
Returns (netloc, path). -/
def urlparseNetlocPath (u : Str) : Str × Str :=
  if Py.startswith ("https://".toList) u then
    let r := u.drop 8
    (r.takeWhile (· != '/'), r.dropWhile (· != '/'))
  else ([], u)

/-- GitLabClient.parse_repo_url from snyk_sca_validator_core.py
(lines 387-458): http-to-https normalization, the SSH branch driven by
git-at and dot-git replacement and colon/slash splitting, then the generic
HTTP branch via urlparse, slash strip, dot-git suffix strip and path split. -/
def parse_repo_url (url : Str) : Option RepoInfo :=
  if url == [] then none else
  let url := if Py.startswith ("http://".toList) url then "https://".toList ++ url.drop 7 else url
  let ssh : Option RepoInfo :=
    if Py.startswith ("git@".toList) url then
      let parts := Py.splitChar ':' (Py.replaceAll (".git".toList) [] (Py.replaceAll ("git@".toList) [] url))
      match parts with
      | [host, path] =>
        let pathParts := Py.splitChar '/' path
        if pathParts.length ≥ 2 then
          some { platform :=
                   if Py.containsSub ("gitlab".toList) host then "gitlab".toList
                   else if Py.containsSub ("github".toList) host then "github".toList
                   else "bitbucket".toList
               , host := host
               , owner := Py.joinChar '/' pathParts.dropLast
               , repo := pathParts.getLastD []
               , url := url }
        else none
      | _ => none
    else none
  match ssh with
  | some r => some r
  | none =>
    let hp := urlparseNetlocPath url
    let host := hp.1
    let path := Py.stripChar '/' hp.2
    let path := if Py.endswith (".git".toList) path then Py.dropRightN 4 path else path
    let pathParts := Py.splitChar '/' path
    if pathParts.length ≥ 2 then
      some { platform :=
               if Py.containsSub ("gitlab".toList) host then "gitlab".toList
               else if Py.containsSub ("github".toList) host then "github".toList
               else if Py.containsSub ("bitbucket".toList) host then "bitbucket".toList
               else "unknown".toList
           , host := host
           , owner := Py.joinChar '/' pathParts.dropLast
           , repo := pathParts.getLastD []
           , url := url }
    else none

end Core

namespace Main

/-- Result dictionary of GitLabClient.parse_repo_url in snyk_sca_validator.py.
The Python dictionaries carry is_local or is_ssh only in the branches that
set them; absent keys are embedded as the default false. -/
structure RepoInfo where
  platform : Str
  host : Str
  owner : Str
  repo : Str
  branch : Str
  is_local : Bool := false
  is_ssh : Bool := false
deriving Repr, DecidableEq

/-- Effect of the lazy repo group with optional suffix in the URL regexes,
the fragment ([^ /]+?)(?:\.git)?: the shortest match strips one final
dot-git exactly when a nonempty prefix remains. -/
def stripGit (s : Str) : Str :=
  if Py.endswith (".git".toList) s ∧ 4 < s.length then Py.dropRightN 4 s else s

/-- The SSH regex of snyk_sca_validator.py line 453,
git-at ([^ :]+) colon ([^ /]+) slash ([^ /]+?)(?:\.git)? end,
matched at segment level: host up to the first colon, a single-segment
owner, and a final slash-free repo with an optional dot-git suffix. -/
def sshMatch (url : Str) : Option (Str × Str × Str) :=
  if Py.startswith ("git@".toList) url then
    let rest := url.drop 4
    let host := rest.takeWhile (· != ':')
    match rest.drop host.length with
    | [] => none
    | _ :: tail =>
      if host == [] then none else
      let owner := tail.takeWhile (· != '/')
      match tail.drop owner.length with
      | [] => none
      | _ :: r =>
        if owner == [] then none
        else if r == [] then none
        else if Py.containsChar '/' r then none
        else some (host, owner, stripGit r)
  else none

/-- Strip the scheme prefix required by every web-URL regex (https?://). -/
def dropScheme (url : Str) : Option Str :=
  if Py.startswith ("https://".toList) url then some (url.drop 8)
  else if Py.startswith ("http://".toList) url then some (url.drop 7)
  else none

/-- Tail of the github and bitbucket regexes after the owner segment,
the fragment ([^ /]+?)(?:\.git)?(?:/KEY/([^ /]+))?/? end:
a slash-free repo with optional dot-git suffix, an optional branch marker
introduced by the key segment, and an optional trailing slash.
Returns the repo and the optional branch group. -/
def repoTailMatch (key : Str) (r : Str) : Option (Str × Option Str) :=
  let s0 := r.takeWhile (· != '/')
  if s0 == [] then none
  else
    match r.drop s0.length with
    | [] => some (stripGit s0, none)
    | ['/'] => some (stripGit s0, none)
    | _ :: u =>
      if Py.startswith (key ++ ['/']) u then
        let b := u.drop (key.length + 1)
        let b := if Py.endswith ['/'] b && 1 < b.length then Py.dropRightN 1 b else b
        if b == [] then none
        else if Py.containsChar '/' b then none
        else some (stripGit s0, some b)
      else none

/-- The two GitHub patterns of snyk_sca_validator.py (lines 470-473), a
single-segment owner and the repoTailMatch tail with key tree, then blob. -/
def githubMatch (url : Str) : Option (Str × Str × Str) :=
  match dropScheme url with
  | none => none
  | some rest =>
    if Py.startswith ("github.com/".toList) rest then
      let p := rest.drop 11
      let owner := p.takeWhile (· != '/')
      if owner == [] then none else
      match p.drop owner.length with
      | [] => none
      | _ :: r =>
        match repoTailMatch ("tree".toList) r with
        | some (repo, b) => some (owner, repo, b.getD ("main".toList))
        | none =>
          match repoTailMatch ("blob".toList) r with
          | some (repo, b) => some (owner, repo, b.getD ("main".toList))
          | none => none
    else none

/-- The Bitbucket pattern of snyk_sca_validator.py (lines 491-493), a
single-segment owner and the repoTailMatch tail with key src. -/
def bitbucketMatch (url : Str) : Option (Str × Str × Str) :=
  match dropScheme url with
  | none => none
  | some rest =>
    if Py.startswith ("bitbucket.org/".toList) rest then
      let p := rest.drop 14
      let owner := p.takeWhile (· != '/')
      if owner == [] then none else
      match p.drop owner.length with
      | [] => none
      | _ :: r =>
        match repoTailMatch ("src".toList) r with
        | some (repo, b) => some (owner, repo, b.getD ("main".toList))
        | none => none
    else none

/-- Drop the single trailing empty segment produced by an optional trailing
slash (the /? end of the URL regexes) from a split path. -/
def dropTrailEmpty (segs : List Str) : List Str :=
  match segs.getLast? with
  | some [] => segs.dropLast
  | _ => segs

/-- The split attempt of blobSplit at the current position: the current
segment x is the repo, and the following segments must be the dash, the blob
keyword, a nonempty branch, and a nonempty tail. -/
def blobArm (x : Str) : List Str → Option (List Str × Str × Str)
  | d :: bl :: br :: post =>
    if x != [] && d == "-".toList && bl == "blob".toList && br != [] && !post.isEmpty then
      some ([], x, br)
    else none
  | _ => none

/-- Greedy owner split for the blob-style GitLab regexes, the fragment
([^ /]+(?:/[^ /]+)*) slash ([^ /]+?)(?:\.git)? slash dash slash blob slash
([^ /]+) slash dot-star end:
find the rightmost split pre, repo, dash, blob, branch, post with slash-free
nonempty owner chunks, nonempty repo and branch, and a nonempty tail after
the branch, exactly as the backtracking regex engine does with a greedy
first group. -/
def blobSplit : List Str → Option (List Str × Str × Str)
  | [] => none
  | x :: xs =>
    match (if x == [] then none
      else (blobSplit xs).map (fun p => (x :: p.1, p.2.1, p.2.2))) with
    | some res => some res
    | none => blobArm x xs

/-- The tree shape on the reversed normalized segments: branch, the tree
keyword, repo, then a nonempty owner. -/
def treeArm : List Str → Option (Str × Str × Str)
  | b :: t :: r :: o :: os =>
    if t == "tree".toList then some (Py.joinChar '/' (o :: os).reverse, stripGit r, b)
    else none
  | _ => none

/-- The dash-tree shape on the reversed normalized segments: branch, the
tree keyword, the dash, repo, then a nonempty owner. -/
def dashTreeArm : List Str → Option (Str × Str × Str)
  | b :: t :: d :: r :: o :: os =>
    if t == "tree".toList && d == "-".toList then
      some (Py.joinChar '/' (o :: os).reverse, stripGit r, b)
    else none
  | _ => none

/-- The plain shape on the reversed normalized segments: repo then a
nonempty owner, with branch defaulted to main (the has_branch bookkeeping). -/
def plainArm : List Str → Option (Str × Str × Str)
  | r :: o :: os => some (Py.joinChar '/' (o :: os).reverse, stripGit r, "main".toList)
  | _ => none

/-- Shared segment-level match for the four GitLab URL path shapes (tree,
dash-tree, dash-blob, plain), applied to the path after the host part. Each
shape group of the cascade (gitlab.com, custom instance, generic instance)
lists the same four path shapes in this order. Returns owner, repo and
branch, with branch main for the plain shape (the has_branch bookkeeping of
the matching code). -/
def pathMatch (path : Str) : Option (Str × Str × Str) :=
  let raw := Py.splitChar '/' path
  let ns := dropTrailEmpty raw
  let ok := ns.all (fun s => !s.isEmpty)
  match (if ok then treeArm ns.reverse else none) with
  | some res => some res
  | none =>
  match (if ok then dashTreeArm ns.reverse else none) with
  | some res => some res
  | none =>
  match blobSplit raw with
  | some (pre, r, br) =>
    if !pre.isEmpty then some (Py.joinChar '/' pre, stripGit r, br) else none
  | none =>
  if ok then plainArm ns.reverse else none

/-- The GitLab URL pattern cascade of snyk_sca_validator.py (lines 511-572):
the gitlab.com shapes, then the custom dot-gitlab-dot-com host shapes, then
the generic-host shapes guarded by the negative lookahead excluding the
github.com and bitbucket.org prefixes; a gitlab.com-prefixed URL is decided
by the gitlab.com shapes alone (the later shapes impose the same segment
conditions there), which the branch on the URL prefix in the source also
assumes when it reads the capture groups. -/
def gitlabMatch (url : Str) : Option RepoInfo :=
  match dropScheme url with
  | none => none
  | some rest =>
    if Py.startswith ("gitlab.com/".toList) rest then
      match pathMatch (rest.drop 11) with
      | some (owner, repo, branch) =>
        some { platform := "gitlab".toList, host := "gitlab.com".toList
             , owner := owner, repo := repo, branch := branch }
      | none => none
    else
      let host := rest.takeWhile (· != '/')
      let isCustom := Py.endswith (".gitlab.com".toList) host && 11 < host.length
      let blocked := Py.startswith ("github.com".toList) rest ||
        Py.startswith ("bitbucket.org".toList) rest
      if host == [] then none
      else if !isCustom && blocked then none
      else
        match rest.drop host.length with
        | [] => none
        | _ :: path =>
          match pathMatch path with
          | some (owner, repo, branch) =>
            some { platform := "gitlab".toList, host := host, owner := owner
                 , repo := repo, branch := branch }
          | none => none

/-- GitLabClient.parse_repo_url from snyk_sca_validator.py (lines 407-575):
empty check, the file scheme and absolute-path local branches, the SSH
regex, then the GitHub, Bitbucket and GitLab pattern cascades. The platform
conditional of the SSH branch is transcribed as written on line 459, where
both arms of the conditional expression are the string git. -/
def parse_repo_url (url : Str) : Option RepoInfo :=
  if url == [] then none
  else if Py.startswith ("file://".toList) url then
    some { platform := "local".toList, host := "local".toList, owner := "local".toList
         , repo := Py.replaceAll ("file://".toList) [] url, branch := "main".toList
         , is_local := true }
  else if Py.startswith ['/'] url && !Py.startswith ['/', '/'] url then
    some { platform := "local".toList, host := "local".toList, owner := "local".toList
         , repo := url, branch := "main".toList, is_local := true }
  else
    match sshMatch url with
    | some (host, owner, repo) =>
      some { platform := if Py.containsSub ("gitlab".toList) host then "git".toList else "git".toList
           , host := host, owner := owner, repo := repo, branch := "main".toList
           , is_ssh := true }
    | none =>
      match githubMatch url with
      | some (owner, repo, branch) =>
        some { platform := "github".toList, host := "github.com".toList, owner := owner
             , repo := repo, branch := branch }
      | none =>
        match bitbucketMatch url with
        | some (owner, repo, branch) =>
          some { platform := "bitbucket".toList, host := "bitbucket.org".toList, owner := owner
               , repo := repo, branch := branch }
        | none => gitlabMatch url

end Main

namespace Core

/-- GitLabClient.check_file_exists from snyk_sca_validator_core.py (lines
520-546), as a function of the HTTP status code of the file request (the
platform gate and URL construction do not affect the returned flag once the
request is issued): the code ends with exists = (status code equals 200), so
not-found and every other non-success status alike yield false. -/
def check_file_exists_of_status (status : Nat) : Bool := status == 200

/-- Result dictionary of SCAValidator.validate_file in
snyk_sca_validator_core.py (lines 651-655): the joined path is stored under
the file_path key next to the existence flag and the root. -/
structure FileValidation where
  file_path : Str
  file_exists : Bool
  root : Str
deriving Repr, DecidableEq

/-- SCAValidator.validate_file from snyk_sca_validator_core.py (lines
641-658): os.path.join of root and file path, backslash normalization,
slash strip on both ends, then the existence check on the joined path,
supplied as an oracle from the checked path to the returned flag. -/
def validate_file (check : Str → Bool) (file_path root : Str) : FileValidation :=
  let full_path := Py.stripChar '/' (Py.replaceAll ['\\'] ['/'] (Py.posixJoin root file_path))
  { file_path := full_path, file_exists := check full_path, root := root }

/-- One HTTP response of the core targets endpoint (the core implementation
issues a single request per version, without a pagination loop): the status
code and the data array. -/
structure Resp where
  status : Nat
  data : List Str
deriving Repr, DecidableEq

/-- SnykAPI._get_targets_with_version from snyk_sca_validator_core.py
(lines 181-208): 200 returns the data array, 404 returns None, 403 and 401
return None, and any other status also returns None. -/
def get_targets_with_version (r : Resp) : Option (List Str) :=
  if r.status == 200 then some r.data
  else if r.status == 404 then none
  else if r.status == 403 || r.status == 401 then none
  else none

/-- The version list of SnykAPI.get_targets_for_org in
snyk_sca_validator_core.py (line 167). -/
def core_api_versions : List Str :=
  ["2024-10-15".toList, "2024-09-04".toList, "2023-05-29".toList, "2023-06-18".toList]

/-- The version-fallback loop of SnykAPI.get_targets_for_org in
snyk_sca_validator_core.py (lines 169-179): the first version whose fetch
returns a list wins; exhausting the list returns an empty list. The api
argument maps a version to the response served for it. -/
def core_targets_loop (api : Str → Resp) : List Str → List Str
  | [] => []
  | v :: rest =>
    match get_targets_with_version (api v) with
    | some ts => ts
    | none => core_targets_loop api rest

/-- SnykAPI.get_targets_for_org from snyk_sca_validator_core.py (lines
157-179): the organization access gate (validate_organization_access,
supplied as a boolean), then the version-fallback loop. -/
def get_targets_for_org (accessible : Bool) (api : Str → Resp) : List Str :=
  if !accessible then [] else core_targets_loop api core_api_versions

/-- The fields of one project element read by
SCAValidator.detect_duplicate_projects_by_name_pattern: id,
attributes.name, attributes.created, attributes.type,
relationships.target.data.id and relationships.organization.data.id, with
the dictionary-get defaults already applied; a missing target id is none. -/
structure RawProject where
  id : Str
  name : Str
  created : Str
  ptype : Str
  target_id : Option Str
  org_id : Option Str
deriving Repr, DecidableEq

/-- One grouped entry as built on lines 716-723 of
snyk_sca_validator_core.py. -/
structure GroupedProject where
  project_id : Str
  project_name : Str
  created : Str
  org_id : Option Str
  target_id : Str
  project_type : Str
deriving Repr, DecidableEq

/-- One stale-duplicate record as built on lines 753-765 of
snyk_sca_validator_core.py. -/
structure StaleProject where
  project_id : Str
  project_name : Str
  unique_identifier : Str
  reason : Str
  duplicate_of : Str
  duplicate_of_name : Str
  org_id : Option Str
  target_id : Str
  created : Str
  duplicate_created : Str
  project_type : Str
deriving Repr, DecidableEq

/-- Append an entry to the per-unique-part list inside one target group,
preserving Python dict insertion order. -/
def addToUniqueGroups (upart : Str) (e : GroupedProject) :
    List (Str × List GroupedProject) → List (Str × List GroupedProject)
  | [] => [(upart, [e])]
  | (u, es) :: rest =>
    if u == upart then (u, es ++ [e]) :: rest
    else (u, es) :: addToUniqueGroups upart e rest

/-- Append an entry to the nested target_groups mapping, preserving Python
dict insertion order at both levels. -/
def addToTargetGroups (tid upart : Str) (e : GroupedProject) :
    List (Str × List (Str × List GroupedProject)) →
    List (Str × List (Str × List GroupedProject))
  | [] => [(tid, [(upart, [e])])]
  | (t, ug) :: rest =>
    if t == tid then (t, addToUniqueGroups upart e ug) :: rest
    else (t, ug) :: addToTargetGroups tid upart e rest

/-- The grouping loop of detect_duplicate_projects_by_name_pattern (lines
697-723): skip projects with a falsy target id or no colon in the name;
otherwise group by target id and by the os.path.normpath image of the
whitespace-stripped text after the first colon. -/
def buildTargetGroups (all_projects : List RawProject) :
    List (Str × List (Str × List GroupedProject)) :=
  all_projects.foldl (fun groups p =>
    match p.target_id with
    | none => groups
    | some tid =>
      if tid == [] || !Py.containsChar ':' p.name then groups
      else
        let upart := Py.normpath (Py.stripWs (Py.afterChar ':' p.name))
        addToTargetGroups tid upart
          { project_id := p.id, project_name := p.name, created := p.created
          , org_id := p.org_id, target_id := tid, project_type := p.ptype } groups) []

/-- Python lexicographic string comparison (strict less-than). -/
def strLt : Str → Str → Bool
  | [], [] => false
  | [], _ :: _ => true
  | _ :: _, [] => false
  | a :: as, b :: bs => if a < b then true else if b < a then false else strLt as bs

/-- Insertion step of a stable newest-first sort by creation date: a later
element passes an earlier one only when its date is strictly greater, which
reproduces list.sort(key=created, reverse=True), a stable descending sort. -/
def insertByCreatedDesc (p : GroupedProject) : List GroupedProject → List GroupedProject
  | [] => [p]
  | q :: rest =>
    if strLt q.created p.created then p :: q :: rest
    else q :: insertByCreatedDesc p rest

/-- projects.sort(key=created, reverse=True) from line 744. -/
def sortByCreatedDesc (l : List GroupedProject) : List GroupedProject :=
  l.foldl (fun acc p => insertByCreatedDesc p acc) []

/-- SCAValidator._analyze_name_pattern_duplicates from
snyk_sca_validator_core.py (lines 739-767): sort newest first and flag every
project after the first as a stale duplicate of the first. -/
def analyze_name_pattern_duplicates (projects : List GroupedProject) (upart : Str) :
    List StaleProject :=
  match sortByCreatedDesc projects with
  | [] => []
  | newest :: rest =>
    rest.map (fun p =>
      { project_id := p.project_id, project_name := p.project_name
      , unique_identifier := upart
      , reason := "Duplicate project - newer version exists".toList
      , duplicate_of := newest.project_id, duplicate_of_name := newest.project_name
      , org_id := p.org_id, target_id := p.target_id, created := p.created
      , duplicate_created := newest.created, project_type := p.project_type })

/-- SCAValidator.detect_duplicate_projects_by_name_pattern from
snyk_sca_validator_core.py (lines 683-737): build the nested groups, then
collect the stale records of every group with more than one member. -/
def detect_duplicate_projects_by_name_pattern (all_projects : List RawProject) :
    List StaleProject :=
  (buildTargetGroups all_projects).foldl (fun dups tg =>
    tg.2.foldl (fun dups ug =>
      if 1 < ug.2.length then dups ++ analyze_name_pattern_duplicates ug.2 ug.1
      else dups) dups) []

end Core

namespace Main

/-- The body of the try block in the GitLab branch of
GitLabClient.check_file_exists (snyk_sca_validator.py lines 774-779) as a
function of the HTTP status: 200 returns true, 404 returns false,
raise_for_status raises for any status of 400 or above (the error case) and
is a no-op below 400, in which case the branch falls through (none). -/
def check_file_exists_try (status : Nat) : Except Nat (Option Bool) :=
  if status == 200 then .ok (some true)
  else if status == 404 then .ok (some false)
  else if 400 ≤ status then .error status
  else .ok none

/-- GitLabClient.check_file_exists from snyk_sca_validator.py (lines
725-822), GitLab branch, as a function of the HTTP status: the surrounding
except clause catches every exception raised inside the try block and
returns False (lines 781-784), and a fall-through reaches the final return
False on line 822. -/
def check_file_exists_of_status (status : Nat) : Bool :=
  match check_file_exists_try status with
  | .ok (some b) => b
  | .ok none => false
  | .error _ => false

/-- Result dictionary of SCAValidator.validate_file in snyk_sca_validator.py
(lines 1482-1487); the last_checked wall-clock timestamp is not embedded. -/
structure FileValidation where
  file_path : Str
  full_path : Str
  exists_in_gitlab : Bool
deriving Repr, DecidableEq

/-- SCAValidator.validate_file from snyk_sca_validator.py (lines 1459-1494):
when root_dir is truthy and the file path does not start with it, the full
path is root_dir, a slash and the file path with slashes stripped on both
ends, otherwise the file path unchanged; the GitLab existence check is
supplied as an oracle from the checked path to the returned flag. -/
def validate_file (check : Str → Bool) (file_path root_dir : Str) : FileValidation :=
  let full_path :=
    if root_dir != [] && !Py.startswith root_dir file_path then
      Py.stripChar '/' (root_dir ++ '/' :: file_path)
    else file_path
  { file_path := file_path, full_path := full_path, exists_in_gitlab := check full_path }

/-- Counters and per-file results of a validate_project result dictionary
(snyk_sca_validator.py lines 1132-1141); identification fields that do not
interact with the counters are omitted. -/
structure ProjectResult where
  files_validated : Nat
  files_missing : Nat
  files_present : Nat
  files : List FileValidation
deriving Repr, DecidableEq

/-- One loop step of SCAValidator.validate_project (lines 1143-1151):
validate the file, append the result, bump files_validated, and bump
files_present or files_missing according to the existence flag. -/
def projectStep (check : Str → Bool) (root_dir : Str) (pr : ProjectResult) (fp : Str) :
    ProjectResult :=
  let fr := validate_file check fp root_dir
  { files := pr.files ++ [fr]
  , files_validated := pr.files_validated + 1
  , files_present := pr.files_present + if fr.exists_in_gitlab then 1 else 0
  , files_missing := pr.files_missing + if fr.exists_in_gitlab then 0 else 1 }

/-- SCAValidator.validate_project from snyk_sca_validator.py (lines
1082-1153) as a function of the fetched project details: none embeds the
early return with zero counters when get_project_details fails (lines
1107-1119), and some (root_dir, file_paths) supplies the root attribute and
the extracted target-file paths. -/
def validate_project (check : Str → Bool) (details : Option (Str × List Str)) :
    ProjectResult :=
  match details with
  | none => { files_validated := 0, files_missing := 0, files_present := 0, files := [] }
  | some (root_dir, file_paths) =>
    file_paths.foldl (projectStep check root_dir)
      { files_validated := 0, files_missing := 0, files_present := 0, files := [] }

/-- Counters and per-project results of a validate_target result dictionary
(snyk_sca_validator.py lines 1045-1055); parse_error records the
early-return dictionary of lines 1005-1015. -/
structure TargetResult where
  projects_processed : Nat
  files_validated : Nat
  files_missing : Nat
  files_present : Nat
  projects : List ProjectResult
  parse_error : Bool
deriving Repr, DecidableEq

/-- One loop step of SCAValidator.validate_target (lines 1057-1063). -/
def targetStep (check : Str → Bool) (tr : TargetResult)
    (details : Option (Str × List Str)) : TargetResult :=
  let pr := validate_project check details
  { tr with
    projects := tr.projects ++ [pr],
    projects_processed := tr.projects_processed + 1,
    files_validated := tr.files_validated + pr.files_validated,
    files_missing := tr.files_missing + pr.files_missing,
    files_present := tr.files_present + pr.files_present }

/-- SCAValidator.validate_target from snyk_sca_validator.py (lines 975-1080)
as a function of the parse_repo_url outcome (parsed) and the fetched
projects, each supplied as in validate_project; the missing-files scan
attached afterwards (lines 1066-1078) does not touch the counters. -/
def validate_target (check : Str → Bool) (parsed : Bool)
    (projects : List (Option (Str × List Str))) : TargetResult :=
  if !parsed then
    { projects_processed := 0, files_validated := 0, files_missing := 0
    , files_present := 0, projects := [], parse_error := true }
  else
    projects.foldl (targetStep check)
      { projects_processed := 0, files_validated := 0, files_missing := 0
      , files_present := 0, projects := [], parse_error := false }

/-- Counters and per-target results of a validate_organization result
dictionary (snyk_sca_validator.py lines 954-962); accessible records the
early return of lines 938-949. -/
structure OrgResult where
  targets_processed : Nat
  projects_processed : Nat
  files_validated : Nat
  files_missing : Nat
  files_present : Nat
  targets : List TargetResult
  accessible : Bool
deriving Repr, DecidableEq

/-- Input of one target inside validate_organization: whether its URL
parses, and its projects. -/
structure TargetInput where
  parsed : Bool
  projects : List (Option (Str × List Str))

/-- One loop step of SCAValidator.validate_organization (lines 964-971). -/
def orgStep (check : Str → Bool) (org : OrgResult) (t : TargetInput) : OrgResult :=
  let tr := validate_target check t.parsed t.projects
  { org with
    targets := org.targets ++ [tr],
    targets_processed := org.targets_processed + 1,
    projects_processed := org.projects_processed + tr.projects_processed,
    files_validated := org.files_validated + tr.files_validated,
    files_missing := org.files_missing + tr.files_missing,
    files_present := org.files_present + tr.files_present }

/-- SCAValidator.validate_organization from snyk_sca_validator.py (lines
925-973) as a function of the access check and the fetched targets. -/
def validate_organization (check : Str → Bool) (accessible : Bool)
    (targets : List TargetInput) : OrgResult :=
  if !accessible then
    { targets_processed := 0, projects_processed := 0, files_validated := 0
    , files_missing := 0, files_present := 0, targets := [], accessible := false }
  else
    targets.foldl (orgStep check)
      { targets_processed := 0, projects_processed := 0, files_validated := 0
      , files_missing := 0, files_present := 0, targets := [], accessible := true }

/-- One HTTP page response of the paginated REST endpoints: the status code,
the data array, and whether a links.next entry is present. The source
normalizes a relative next link to an absolute URL before the next request;
only the presence of the link steers the loop, so the successive responses
of one fetch are supplied as a list consumed in order. -/
structure PageResp where
  status : Nat
  data : List Str
  next : Bool
deriving Repr, DecidableEq

/-- The pagination loop of SnykAPI.get_organizations (snyk_sca_validator.py
lines 87-118): response.raise_for_status() propagates an exception for any
status of 400 or above (the error case), otherwise the data array is
appended and the loop continues while links.next is present. -/
def get_organizations_run : List PageResp → List Str → Except Nat (List Str)
  | [], acc => .ok acc
  | r :: rest, acc =>
    if 400 ≤ r.status then .error r.status
    else
      let acc := acc ++ r.data
      if r.next then get_organizations_run rest acc else .ok acc

/-- The pagination loop of SnykAPI._get_targets_with_version
(snyk_sca_validator.py lines 229-297): a 404, 403 or 401 on any page returns
None, any other status of 400 or above raises (the error case), otherwise
pages accumulate while links.next is present. -/
def get_targets_with_version_run : List PageResp → List Str → Except Nat (Option (List Str))
  | [], acc => .ok (some acc)
  | r :: rest, acc =>
    if r.status == 404 || r.status == 403 || r.status == 401 then .ok none
    else if 400 ≤ r.status then .error r.status
    else
      let acc := acc ++ r.data
      if r.next then get_targets_with_version_run rest acc else .ok (some acc)

/-- The version-fallback loop of SnykAPI.get_targets_for_org
(snyk_sca_validator.py lines 210-227): try each API version in order; a
None result falls through to the next version; an exception is caught and
falls through as well, except on the last version, where the function
returns an empty list; exhausting the list also returns an empty list. The
api argument maps a version to the page responses served for it. -/
def targets_version_loop (api : Str → List PageResp) : List Str → List Str
  | [] => []
  | v :: rest =>
    match get_targets_with_version_run (api v) [] with
    | .ok (some ts) => ts
    | .ok none => targets_version_loop api rest
    | .error _ =>
      match rest with
      | [] => []
      | _ => targets_version_loop api rest

/-- The fallback version list of get_targets_for_org (line 208), headed by
the version argument (default 2024-10-15). -/
def api_versions (version : Str) : List Str :=
  [version, "2023-05-29".toList, "2023-06-12".toList, "2023-08-14".toList,
   "2023-10-16".toList]

/-- SnykAPI.get_targets_for_org from snyk_sca_validator.py (lines 193-227). -/
def get_targets_for_org (api : Str → List PageResp) (version : Str) : List Str :=
  targets_version_loop api (api_versions version)

end Main

namespace Recon

/-- Modelled from the spec: the classification step of the Reconciliation
Engine (spec sections 3 and 4.4, the MatchResult data) has no implementation
under src/; following the words of the spec, the matched set is the
intersection of the two catalog key sets, left-only is the left difference,
and right-only is the right difference. -/
def reconcile (left right : Finset String) :
    Finset String × Finset String × Finset String :=
  (left ∩ right, left \ right, right \ left)

end Recon

namespace Urls

/-- The HTTPS GitLab URL family of claim C1: scheme choice, nested owner
segments, a repo segment with an optional dot-git suffix, and an optional
trailing slash. -/
def gitlabUrl (https git trail : Bool) (segs : List Str) (repo : Str) : Str :=
  (if https then "https://".toList else "http://".toList) ++
    ("gitlab.com/".toList ++
      (Py.joinChar '/' (segs ++ [repo ++ (if git then ".git".toList else [])]) ++
        (if trail then ['/'] else [])))

/-- The SSH reference family of claim C8: the git user, a host, a colon, a
slash-joined path and an optional suffix. -/
def sshUrl (host p sfx : Str) : Str :=
  "git@".toList ++ (host ++ ':' :: (p ++ sfx))

end Urls

namespace Examples

/-- First project of the duplicate-detection scenario (name proj:./a,
oldest). -/
def dupP1 : Core.RawProject :=
  { id := "p1".toList, name := "proj:./a".toList
  , created := "2024-01-01T00:00:00Z".toList, ptype := "pip".toList
  , target_id := some ("t1".toList), org_id := some ("o1".toList) }

/-- Second project of the duplicate-detection scenario (name proj:a,
middle). -/
def dupP2 : Core.RawProject :=
  { id := "p2".toList, name := "proj:a".toList
  , created := "2024-01-02T00:00:00Z".toList, ptype := "pip".toList
  , target_id := some ("t1".toList), org_id := some ("o1".toList) }

/-- Third project of the duplicate-detection scenario (name proj:../x/../a,
newest). -/
def dupP3 : Core.RawProject :=
  { id := "p3".toList, name := "proj:../x/../a".toList
  , created := "2024-01-03T00:00:00Z".toList, ptype := "pip".toList
  , target_id := some ("t1".toList), org_id := some ("o1".toList) }

/-- The single stale record the detector produces on the scenario: the
project named proj:./a flagged as a duplicate of the one named proj:a. -/
def dupStale1 : Core.StaleProject :=
  { project_id := "p1".toList, project_name := "proj:./a".toList
  , unique_identifier := "a".toList
  , reason := "Duplicate project - newer version exists".toList
  , duplicate_of := "p2".toList, duplicate_of_name := "proj:a".toList
  , org_id := some ("o1".toList), target_id := "t1".toList
  , created := "2024-01-01T00:00:00Z".toList
  , duplicate_created := "2024-01-02T00:00:00Z".toList
  , project_type := "pip".toList }

end Examples

namespace Py

theorem dotgit_chars : ".git".toList = ['.', 'g', 'i', 't'] := rfl

theorem dotgi_chars : ".gi".toList = ['.', 'g', 'i'] := rfl

theorem gitat_chars : "git@".toList = ['g', 'i', 't', '@'] := rfl

theorem containsSub_nil_left (s : Str) : containsSub [] s = true := by
  cases s <;> simp [containsSub, startswith]

theorem startswith_self_append (p t : Str) : startswith p (p ++ t) = true := by
  induction p with
  | nil => rfl
  | cons a as ih => simp [startswith, ih]

theorem startswith_mono {p s : Str} (t : Str) (h : startswith p s = true) :
    startswith p (s ++ t) = true := by
  induction p generalizing s with
  | nil => rfl
  | cons a as ih =>
    cases s with
    | nil => simp [startswith] at h
    | cons b bs =>
      simp only [startswith, List.cons_append, Bool.and_eq_true, beq_iff_eq] at h ⊢
      exact ⟨h.1, ih h.2⟩

theorem containsSub_mono {p s : Str} (t : Str) (h : containsSub p s = true) :
    containsSub p (s ++ t) = true := by
  induction s with
  | nil =>
    cases p with
    | nil => exact containsSub_nil_left t
    | cons q qs => simp [containsSub, startswith] at h
  | cons c cs ih =>
    simp only [containsSub, Bool.or_eq_true] at h
    rw [List.cons_append]
    simp only [containsSub, Bool.or_eq_true]
    rcases h with h | h
    · exact Or.inl (by rw [← List.cons_append]; exact startswith_mono t h)
    · exact Or.inr (ih h)

theorem containsSub_of_append_eq_false {p s t : Str}
    (h : containsSub p (s ++ t) = false) : containsSub p s = false := by
  cases hc : containsSub p s with
  | false => rfl
  | true => rw [containsSub_mono t hc] at h; exact absurd h (by simp)

theorem containsSub_cons_eq_false {p : Str} {c : Char} {cs : Str}
    (h : containsSub p (c :: cs) = false) :
    startswith p (c :: cs) = false ∧ containsSub p cs = false := by
  rw [containsSub, Bool.or_eq_false_iff] at h
  exact h

theorem replaceAllGo_id {q : Char} {qs r s : Str}
    (h : containsSub (q :: qs) s = false) : replaceAllGo q qs r s 0 = s := by
  induction s with
  | nil => rfl
  | cons c cs ih =>
    obtain ⟨h1, h2⟩ := containsSub_cons_eq_false h
    rw [replaceAllGo, if_neg (by simp [h1]), ih h2]

theorem replaceAll_of_not_contains {p r s : Str}
    (h : containsSub p s = false) : replaceAll p r s = s := by
  cases p with
  | nil => rfl
  | cons q qs => exact replaceAllGo_id h

theorem replaceAllGo_skip (q : Char) (qs r : Str) :
    ∀ t s : Str, replaceAllGo q qs r (t ++ s) t.length = replaceAllGo q qs r s 0 := by
  intro t
  induction t with
  | nil => intro s; rfl
  | cons a as ih => intro s; exact ih s

theorem replaceAll_cancel_head (q : Char) (qs r s : Str) :
    replaceAll (q :: qs) r ((q :: qs) ++ s) = r ++ replaceAll (q :: qs) r s := by
  show replaceAllGo q qs r (q :: (qs ++ s)) 0 = r ++ replaceAllGo q qs r s 0
  rw [replaceAllGo, if_pos (by exact startswith_self_append (q :: qs) s),
    replaceAllGo_skip]

theorem replaceAll_dotgit_concat {S : Str}
    (h : containsSub ['.', 'g', 'i', 't'] (S ++ ['.', 'g', 'i']) = false) :
    replaceAll ['.', 'g', 'i', 't'] [] (S ++ ['.', 'g', 'i', 't']) = S := by
  induction S with
  | nil => rfl
  | cons a S2 ih =>
    rw [List.cons_append] at h
    have h2 : containsSub ['.', 'g', 'i', 't'] (S2 ++ ['.', 'g', 'i']) = false :=
      (containsSub_cons_eq_false h).2
    have h1 : startswith ['.', 'g', 'i', 't'] (a :: (S2 ++ ['.', 'g', 'i'])) = false :=
      (containsSub_cons_eq_false h).1
    have hsw : startswith ['.', 'g', 'i', 't'] (a :: (S2 ++ ['.', 'g', 'i', 't'])) = false := by
      rcases S2 with _ | ⟨b, _ | ⟨c2, _ | ⟨d, S5⟩⟩⟩
      · simp [startswith]
      · simp [startswith]
      · simp [startswith]
      · simp only [startswith, List.cons_append, List.nil_append, Bool.and_eq_true,
          beq_iff_eq] at h1 ⊢
        exact h1
    show replaceAllGo '.' ['g', 'i', 't'] [] (a :: (S2 ++ ['.', 'g', 'i', 't'])) 0 = a :: S2
    rw [replaceAllGo, if_neg (by simp [hsw])]
    exact congrArg (List.cons a) (ih h2)

theorem splitChar_of_not_mem {c : Char} {s : Str} (h : ∀ x ∈ s, x ≠ c) :
    splitChar c s = [s] := by
  induction s with
  | nil => rfl
  | cons a as ih =>
    have ha : (a == c) = false := by simpa using h a (by simp)
    rw [splitChar, if_neg (by simp [ha]), ih (fun x hx => h x (by simp [hx]))]

theorem splitChar_append_cons {c : Char} {s : Str} (t : Str) (h : ∀ x ∈ s, x ≠ c) :
    splitChar c (s ++ c :: t) = s :: splitChar c t := by
  induction s with
  | nil =>
    rw [List.nil_append, splitChar, if_pos (by simp)]
  | cons a as ih =>
    have ha : (a == c) = false := by simpa using h a (by simp)
    rw [List.cons_append, splitChar, if_neg (by simp [ha]),
      ih (fun x hx => h x (by simp [hx]))]

theorem joinChar_pair (c : Char) (p : Str) (q : Str) (qs : List Str) :
    joinChar c (p :: q :: qs) = p ++ c :: joinChar c (q :: qs) := rfl

theorem splitChar_joinChar {c : Char} {parts : List Str} (hne : parts ≠ [])
    (hall : ∀ s ∈ parts, ∀ x ∈ s, x ≠ c) :
    splitChar c (joinChar c parts) = parts := by
  induction parts with
  | nil => exact absurd rfl hne
  | cons p ps ih =>
    cases ps with
    | nil => exact splitChar_of_not_mem (hall p (by simp))
    | cons q qs =>
      rw [joinChar_pair, splitChar_append_cons _ (hall p (by simp)),
        ih (by simp) (fun s hs => hall s (by simp [hs]))]

theorem splitChar_joinChar_concat_sep {c : Char} {parts : List Str} (t : Str)
    (hne : parts ≠ []) (hall : ∀ s ∈ parts, ∀ x ∈ s, x ≠ c) :
    splitChar c (joinChar c parts ++ c :: t) = parts ++ splitChar c t := by
  induction parts with
  | nil => exact absurd rfl hne
  | cons p ps ih =>
    cases ps with
    | nil =>
      show splitChar c (p ++ c :: t) = [p] ++ splitChar c t
      rw [splitChar_append_cons _ (hall p (by simp))]
      rfl
    | cons q qs =>
      rw [joinChar_pair, List.append_assoc, List.cons_append,
        splitChar_append_cons _ (hall p (by simp)),
        ih (by simp) (fun s hs => hall s (by simp [hs]))]
      rfl

theorem joinChar_concat {c : Char} {l : List Str} (x : Str) (h : l ≠ []) :
    joinChar c (l ++ [x]) = joinChar c l ++ c :: x := by
  induction l with
  | nil => exact absurd rfl h
  | cons a as ih =>
    cases as with
    | nil => rfl
    | cons b bs =>
      calc joinChar c ((a :: b :: bs) ++ [x])
          = a ++ c :: joinChar c ((b :: bs) ++ [x]) := joinChar_pair c a b (bs ++ [x])
        _ = a ++ c :: (joinChar c (b :: bs) ++ c :: x) := by rw [ih (by simp)]
        _ = (a ++ c :: joinChar c (b :: bs)) ++ c :: x := by simp
        _ = joinChar c (a :: b :: bs) ++ c :: x := by rw [joinChar_pair]

theorem mem_joinChar {c x : Char} {parts : List Str}
    (hx : x ∈ joinChar c parts) : x = c ∨ ∃ s ∈ parts, x ∈ s := by
  induction parts with
  | nil => simp [joinChar] at hx
  | cons p ps ih =>
    cases ps with
    | nil =>
      exact Or.inr ⟨p, by simp, hx⟩
    | cons q qs =>
      rw [joinChar_pair] at hx
      rcases List.mem_append.mp hx with h | h
      · exact Or.inr ⟨p, by simp, h⟩
      · rcases List.mem_cons.mp h with h | h
        · exact Or.inl h
        · rcases ih h with h | ⟨s, hs, hxs⟩
          · exact Or.inl h
          · exact Or.inr ⟨s, by simp [hs], hxs⟩

theorem stripChar_cons_sep (c : Char) (s : Str) :
    stripChar c (c :: s) = stripChar c s := by
  unfold stripChar
  rw [List.dropWhile_cons, if_pos (by simp)]

theorem stripChar_eq_self {c : Char} {s : Str}
    (h1 : ∀ a ∈ s.head?, a ≠ c) (h2 : ∀ a ∈ s.getLast?, a ≠ c) :
    stripChar c s = s := by
  cases s with
  | nil => rfl
  | cons a as =>
    have ha : (a == c) = false := by simpa using h1 a rfl
    unfold stripChar
    rw [List.dropWhile_cons, if_neg (by simp [ha])]
    rcases hrev : (a :: as).reverse with _ | ⟨b, t⟩
    · exact absurd hrev (by simp)
    · have hb : (b == c) = false := by
        have hgl : (a :: as).getLast? = some b := by
          rw [← List.head?_reverse, hrev]; rfl
        simpa using h2 b hgl
      rw [List.dropWhile_cons, if_neg (by simp [hb]), ← hrev,
        List.reverse_reverse]

theorem endswith_append_self (p s : Str) : endswith p (s ++ p) = true := by
  unfold endswith
  rw [List.reverse_append]
  exact startswith_self_append _ _

theorem not_endswith_dotgit_boundary {repo : Str} (Y : Str)
    (h : endswith (".git".toList) repo = false) :
    endswith (".git".toList) (Y ++ '/' :: repo) = false := by
  unfold endswith at h ⊢
  rw [dotgit_chars] at h ⊢
  rw [show (Y ++ '/' :: repo).reverse = repo.reverse ++ '/' :: Y.reverse by simp]
  rw [show (['.', 'g', 'i', 't'] : Str).reverse = ['t', 'i', 'g', '.'] from rfl] at h ⊢
  rcases hrepo : repo.reverse with _ | ⟨a, _ | ⟨b, _ | ⟨c2, _ | ⟨d, t⟩⟩⟩⟩
  · simp [startswith]
  · simp [startswith]
  · simp [startswith]
  · simp [startswith]
  · rw [hrepo] at h
    simp only [startswith, List.cons_append] at h ⊢
    exact h

theorem containsChar_eq_false {c : Char} {s : Str} (h : c ∉ s) :
    containsChar c s = false := by
  rw [← Bool.not_eq_true]
  simp only [containsChar, List.any_eq_true, beq_iff_eq, not_exists]
  exact fun x hx => h (hx.2 ▸ hx.1)

theorem containsChar_append_cons (c : Char) (x y : Str) :
    containsChar c (x ++ c :: y) = true := by
  simp [containsChar, List.any_eq_true]

theorem takeWhile_append_cons {p : Char → Bool} {s : Str} {a : Char} (t : Str)
    (hall : ∀ x ∈ s, p x = true) (ha : p a = false) :
    (s ++ a :: t).takeWhile p = s := by
  induction s with
  | nil => simp [List.takeWhile_cons, ha]
  | cons b bs ih =>
    rw [List.cons_append, List.takeWhile_cons, if_pos (by simp [hall b (by simp)]),
      ih (fun x hx => hall x (by simp [hx]))]

end Py

namespace Main

theorem dropTrailEmpty_concat_nil (l : List Str) :
    dropTrailEmpty (l ++ [([] : Str)]) = l := by
  unfold dropTrailEmpty
  rw [List.getLast?_concat]
  exact List.dropLast_concat

theorem dropTrailEmpty_concat_cons (l : List Str) (a : Char) (x : Str) :
    dropTrailEmpty (l ++ [a :: x]) = l ++ [a :: x] := by
  unfold dropTrailEmpty
  rw [List.getLast?_concat]

theorem treeArm_eq_none {l : List Str}
    (h : ∀ b t rest, l = b :: t :: rest → t ≠ "tree".toList) :
    treeArm l = none := by
  rcases l with _ | ⟨b, _ | ⟨t, _ | ⟨r, _ | ⟨o, os⟩⟩⟩⟩ <;> try rfl
  have ht : (t == "tree".toList) = false := by simpa using h b t _ rfl
  simp [treeArm, ht]
  simpa using ht

theorem dashTreeArm_eq_none {l : List Str}
    (h : ∀ b t rest, l = b :: t :: rest → t ≠ "tree".toList) :
    dashTreeArm l = none := by
  rcases l with _ | ⟨b, _ | ⟨t, _ | ⟨d, _ | ⟨r, _ | ⟨o, os⟩⟩⟩⟩⟩ <;> try rfl
  have ht : (t == "tree".toList) = false := by simpa using h b t _ rfl
  simp [dashTreeArm, ht]
  exact fun hc => absurd hc (by simpa using ht)

theorem blobArm_eq_none {x : Str} {l : List Str}
    (h : ∀ d rest, l = d :: rest → d ≠ "-".toList) :
    blobArm x l = none := by
  rcases l with _ | ⟨d, _ | ⟨bl, _ | ⟨br, post⟩⟩⟩ <;> try rfl
  have hd : (d == "-".toList) = false := by simpa using h d _ rfl
  simp [blobArm, hd]
  exact fun _ hc => absurd hc (by simpa using hd)

theorem blobSplit_eq_none {l : List Str} (h : ∀ s ∈ l, s ≠ "-".toList) :
    blobSplit l = none := by
  induction l with
  | nil => rfl
  | cons x xs ih =>
    have hxs : blobSplit xs = none := ih (fun s hs => h s (by simp [hs]))
    have harm : blobArm x xs = none := by
      apply blobArm_eq_none
      intro d rest hd
      exact h d (by simp [hd])
    rw [blobSplit, hxs]
    cases hx : x == [] <;> simp [harm]

theorem stripGit_concat {s : Str} (h : s ≠ []) :
    stripGit (s ++ ".git".toList) = s := by
  unfold stripGit
  rw [if_pos]
  · unfold Py.dropRightN
    rw [show (s ++ ".git".toList).length - 4 = s.length by
      simp [List.length_append, Py.dotgit_chars], List.take_left]
  · refine ⟨Py.endswith_append_self _ _, ?_⟩
    have := List.length_pos.mpr h
    simp [List.length_append, Py.dotgit_chars]
    omega

theorem stripGit_of_not_endswith {s : Str}
    (h : Py.endswith (".git".toList) s = false) : stripGit s = s := by
  unfold stripGit
  rw [if_neg]
  rintro ⟨h1, -⟩
  rw [h] at h1
  exact absurd h1 (by simp)

end Main

namespace Main

theorem pathMatch_plain (segs : List Str) (rs : Str) (trail : Bool)
    (hsegs : segs ≠ [])
    (hseg : ∀ s ∈ segs, s ≠ [] ∧ '/' ∉ s ∧ s ≠ "tree".toList ∧ s ≠ "-".toList)
    (hrs : rs ≠ []) (hrs2 : '/' ∉ rs) (hrs3 : rs ≠ "tree".toList)
    (hrs4 : rs ≠ "-".toList) :
    pathMatch (Py.joinChar '/' (segs ++ [rs]) ++ (if trail then ['/'] else [])) =
      some (Py.joinChar '/' segs, stripGit rs, "main".toList) := by
  have hall : ∀ s ∈ segs ++ [rs], ∀ x ∈ s, x ≠ '/' := by
    intro s hs x hx
    rcases List.mem_append.mp hs with h | h
    · exact fun hc => (hseg s h).2.1 (hc ▸ hx)
    · have heq : s = rs := by simpa using h
      exact fun hc => hrs2 (hc ▸ (heq ▸ hx))
  have hne : segs ++ [rs] ≠ [] := by simp
  have hraw : Py.splitChar '/' (Py.joinChar '/' (segs ++ [rs]) ++ (if trail then ['/'] else []))
      = (segs ++ [rs]) ++ (if trail then [([] : Str)] else []) := by
    cases trail with
    | false => simpa using Py.splitChar_joinChar hne hall
    | true =>
      show Py.splitChar '/' (Py.joinChar '/' (segs ++ [rs]) ++ '/' :: []) = _
      rw [Py.splitChar_joinChar_concat_sep [] hne hall]
      rfl
  obtain ⟨a, x, hax⟩ : ∃ a x, rs = a :: x := by
    cases rs with
    | nil => exact absurd rfl hrs
    | cons a x => exact ⟨a, x, rfl⟩
  have hns : dropTrailEmpty ((segs ++ [rs]) ++ (if trail then [([] : Str)] else []))
      = segs ++ [rs] := by
    cases trail with
    | false =>
      rw [if_neg (by simp), List.append_nil, hax]
      exact dropTrailEmpty_concat_cons segs a x
    | true =>
      rw [if_pos (by simp)]
      exact dropTrailEmpty_concat_nil (segs ++ [rs])
  have hok : (segs ++ [rs]).all (fun s => !s.isEmpty) = true := by
    rw [List.all_eq_true]
    intro s hs
    rcases List.mem_append.mp hs with h | h
    · simpa using (hseg s h).1
    · have heq : s = rs := by simpa using h
      subst heq
      simpa using hrs
  have hrev : (segs ++ [rs]).reverse = rs :: segs.reverse := by simp
  have hmemrev : ∀ b t rest, rs :: segs.reverse = b :: t :: rest → t ≠ "tree".toList := by
    intro b t rest hbt
    injection hbt with h1 h2
    have ht : t ∈ segs := by
      have : t ∈ segs.reverse := by rw [h2]; simp
      simpa using this
    exact (hseg t ht).2.2.1
  have htree : treeArm ((segs ++ [rs]).reverse) = none := by
    rw [hrev]
    exact treeArm_eq_none hmemrev
  have hdash : dashTreeArm ((segs ++ [rs]).reverse) = none := by
    rw [hrev]
    exact dashTreeArm_eq_none hmemrev
  have hblob : blobSplit ((segs ++ [rs]) ++ (if trail then [([] : Str)] else [])) = none := by
    apply blobSplit_eq_none
    intro s hs
    rcases List.mem_append.mp hs with h | h
    · rcases List.mem_append.mp h with h | h
      · exact (hseg s h).2.2.2
      · have heq : s = rs := by simpa using h
        subst heq
        exact hrs4
    · cases trail with
      | false => simp at h
      | true =>
        have heq : s = [] := by simpa using h
        subst heq
        simp [show ("-".toList : Str) = ['-'] from rfl]
  have hplain : plainArm ((segs ++ [rs]).reverse)
      = some (Py.joinChar '/' segs, stripGit rs, "main".toList) := by
    rw [hrev]
    rcases hrv : segs.reverse with _ | ⟨o, os⟩
    · exact absurd (by simpa using hrv) hsegs
    · show some (Py.joinChar '/' (o :: os).reverse, stripGit rs, "main".toList) = _
      rw [← hrv, List.reverse_reverse]
  unfold pathMatch
  simp only [hraw, hns, hok, htree, hdash, hblob, hplain, if_true]

/-- The streaming parser on a gitlab.com https URL reduces to the GitLab
cascade: every earlier branch tests a concrete prefix that mismatches. -/
theorem parse_eq_gitlabMatch_https (X : Str) :
    parse_repo_url ("https://gitlab.com/".toList ++ X)
      = gitlabMatch ("https://gitlab.com/".toList ++ X) := rfl

/-- Same reduction for the http scheme, which the patterns accept equally. -/
theorem parse_eq_gitlabMatch_http (X : Str) :
    parse_repo_url ("http://gitlab.com/".toList ++ X)
      = gitlabMatch ("http://gitlab.com/".toList ++ X) := rfl

theorem gitlabMatch_eval_https {X o r b : Str} (h : pathMatch X = some (o, r, b)) :
    gitlabMatch ("https://gitlab.com/".toList ++ X)
      = some { platform := "gitlab".toList, host := "gitlab.com".toList
             , owner := o, repo := r, branch := b } := by
  have e1 : dropScheme ("https://gitlab.com/".toList ++ X)
      = some ("gitlab.com/".toList ++ X) := rfl
  have e2 : Py.startswith ("gitlab.com/".toList) ("gitlab.com/".toList ++ X) = true :=
    Py.startswith_self_append _ _
  have e3 : ("gitlab.com/".toList ++ X).drop 11 = X := by
    rw [show (11 : Nat) = ("gitlab.com/".toList).length from rfl]
    exact List.drop_left _ _
  unfold gitlabMatch
  rw [e1]
  simp only [e2, if_true, e3, h]

theorem gitlabMatch_eval_http {X o r b : Str} (h : pathMatch X = some (o, r, b)) :
    gitlabMatch ("http://gitlab.com/".toList ++ X)
      = some { platform := "gitlab".toList, host := "gitlab.com".toList
             , owner := o, repo := r, branch := b } := by
  have e1 : dropScheme ("http://gitlab.com/".toList ++ X)
      = some ("gitlab.com/".toList ++ X) := rfl
  have e2 : Py.startswith ("gitlab.com/".toList) ("gitlab.com/".toList ++ X) = true :=
    Py.startswith_self_append _ _
  have e3 : ("gitlab.com/".toList ++ X).drop 11 = X := by
    rw [show (11 : Nat) = ("gitlab.com/".toList).length from rfl]
    exact List.drop_left _ _
  unfold gitlabMatch
  rw [e1]
  simp only [e2, if_true, e3, h]

end Main

namespace Py

theorem dropRightN_append {n : Nat} (s t : Str) (h : t.length = n) :
    dropRightN n (s ++ t) = s := by
  unfold dropRightN
  rw [List.length_append, h, Nat.add_sub_cancel, List.take_left]

theorem joinChar_ne_nil {c : Char} {parts : List Str} (h : parts ≠ [])
    (hall : ∀ s ∈ parts, s ≠ []) : joinChar c parts ≠ [] := by
  cases parts with
  | nil => exact absurd rfl h
  | cons p ps =>
    cases ps with
    | nil => exact hall p (by simp)
    | cons q qs =>
      rw [joinChar_pair]
      intro hc
      exact hall p (by simp) (List.append_eq_nil.mp hc).1

theorem stripChar_wrap {c : Char} {s : Str}
    (h1 : ∀ a ∈ s.head?, a ≠ c) (h2 : ∀ a ∈ s.getLast?, a ≠ c) :
    stripChar c (s ++ [c]) = s := by
  cases s with
  | nil => simp [stripChar]
  | cons a as =>
    have ha : (a == c) = false := by simpa using h1 a rfl
    unfold stripChar
    rw [List.cons_append, List.dropWhile_cons, if_neg (by simp [ha]),
      ← List.cons_append,
      show ((a :: as) ++ [c]).reverse = c :: (a :: as).reverse by simp,
      List.dropWhile_cons, if_pos (by simp)]
    rcases hrev : (a :: as).reverse with _ | ⟨b, t⟩
    · exact absurd hrev (by simp)
    · have hb : (b == c) = false := by
        have hgl : (a :: as).getLast? = some b := by
          rw [← List.head?_reverse, hrev]; rfl
        simpa using h2 b hgl
      rw [List.dropWhile_cons, if_neg (by simp [hb]), ← hrev, List.reverse_reverse]

end Py

namespace Py

theorem head?_joinChar (c : Char) (p : Str) (ps : List Str) (hp : p ≠ []) :
    (joinChar c (p :: ps)).head? = p.head? := by
  cases ps with
  | nil => rfl
  | cons q qs =>
    rw [joinChar_pair]
    exact List.head?_append_of_ne_nil _ hp

theorem mem_of_getLast?_mem {l : Str} {a : Char} (h : a ∈ l.getLast?) : a ∈ l := by
  have h2 : a ∈ l.reverse.head? := by rw [List.head?_reverse]; exact h
  exact (List.mem_reverse).mp (List.mem_of_mem_head? h2)

end Py

namespace Core

/-- Evaluation of the core parser on a gitlab.com https URL: the empty check
and the http normalization and SSH branches are skipped on the concrete
prefix, urlparse yields the gitlab.com netloc, and the slash strip, dot-git
suffix strip and path split are supplied as hypotheses. -/
theorem parse_gitlab_eval {X P1 P2 : Str} {parts : List Str}
    (h1 : Py.stripChar '/' ('/' :: X) = P1)
    (h2 : (if Py.endswith (".git".toList) P1 then Py.dropRightN 4 P1 else P1) = P2)
    (h3 : Py.splitChar '/' P2 = parts)
    (hlen : 2 ≤ parts.length) :
    parse_repo_url ("https://gitlab.com/".toList ++ X)
      = some { platform := "gitlab".toList, host := "gitlab.com".toList
             , owner := Py.joinChar '/' parts.dropLast, repo := parts.getLastD []
             , url := "https://gitlab.com/".toList ++ X } := by
  have e0 : (("https://gitlab.com/".toList ++ X : Str) == []) = false := rfl
  have e1 : Py.startswith ("http://".toList) ("https://gitlab.com/".toList ++ X) = false := rfl
  have e2 : Py.startswith ("git@".toList) ("https://gitlab.com/".toList ++ X) = false := rfl
  have e3 : urlparseNetlocPath ("https://gitlab.com/".toList ++ X)
      = ("gitlab.com".toList, '/' :: X) := rfl
  have e4 : Py.containsSub ("gitlab".toList) ("gitlab.com".toList) = true := rfl
  unfold parse_repo_url
  simp only [e0, e1, e2, e3, e4, Bool.false_eq_true, if_false, if_true, h1, h2, h3]
  rw [if_pos hlen]

/-- The core parser rewrites the http scheme to https before any branching,
so a gitlab.com http URL evaluates exactly as its https twin. -/
theorem parse_gitlab_http (X : Str) :
    parse_repo_url ("http://gitlab.com/".toList ++ X)
      = parse_repo_url ("https://gitlab.com/".toList ++ X) := rfl

end Core

namespace Main

/-- The streaming parser on the whole gitlab.com web family: either scheme,
nested plain owner segments, a repo segment and an optional trailing slash
resolve through the plain GitLab shape. -/
theorem gitlab_family_main (segs : List Str) (rs out : Str) (https trail : Bool)
    (hsegs : segs ≠ [])
    (hseg : ∀ s ∈ segs, s ≠ [] ∧ '/' ∉ s ∧ s ≠ "tree".toList ∧ s ≠ "-".toList)
    (hrs : rs ≠ []) (hrs2 : '/' ∉ rs) (hrs3 : rs ≠ "tree".toList)
    (hrs4 : rs ≠ "-".toList)
    (hout : stripGit rs = out) :
    parse_repo_url ((if https then "https://".toList else "http://".toList) ++
        ("gitlab.com/".toList ++
          (Py.joinChar '/' (segs ++ [rs]) ++ (if trail then ['/'] else []))))
      = some { platform := "gitlab".toList, host := "gitlab.com".toList
             , owner := Py.joinChar '/' segs, repo := out, branch := "main".toList } := by
  have hpm := pathMatch_plain segs rs trail hsegs hseg hrs hrs2 hrs3 hrs4
  rw [hout] at hpm
  cases https with
  | true =>
    show parse_repo_url ("https://gitlab.com/".toList ++
        (Py.joinChar '/' (segs ++ [rs]) ++ (if trail then ['/'] else []))) = _
    rw [parse_eq_gitlabMatch_https]
    exact gitlabMatch_eval_https hpm
  | false =>
    show parse_repo_url ("http://gitlab.com/".toList ++
        (Py.joinChar '/' (segs ++ [rs]) ++ (if trail then ['/'] else []))) = _
    rw [parse_eq_gitlabMatch_http]
    exact gitlabMatch_eval_http hpm

end Main

namespace Core

/-- The core parser on the same gitlab.com web family, projected to the
host, owner and repo fields: the dot-git strip on the joined path is
supplied as a hypothesis resolving it to a clean final segment. -/
theorem gitlab_family_core (segs : List Str) (rs out : Str) (https trail : Bool)
    (hsegs : segs ≠ [])
    (hseg : ∀ s ∈ segs, s ≠ [] ∧ '/' ∉ s ∧ s ≠ "tree".toList ∧ s ≠ "-".toList)
    (hrs : rs ≠ []) (hrs2 : '/' ∉ rs)
    (hP2 : (if Py.endswith (".git".toList) (Py.joinChar '/' (segs ++ [rs]))
            then Py.dropRightN 4 (Py.joinChar '/' (segs ++ [rs]))
            else Py.joinChar '/' (segs ++ [rs])) = Py.joinChar '/' (segs ++ [out]))
    (hout2 : '/' ∉ out) :
    (parse_repo_url ((if https then "https://".toList else "http://".toList) ++
        ("gitlab.com/".toList ++
          (Py.joinChar '/' (segs ++ [rs]) ++ (if trail then ['/'] else []))))).map
        (fun r => (r.host, r.owner, r.repo))
      = some ("gitlab.com".toList, Py.joinChar '/' segs, out) := by
  obtain ⟨s1, rest, hsr⟩ : ∃ s1 rest, segs = s1 :: rest := by
    cases segs with
    | nil => exact absurd rfl hsegs
    | cons a b => exact ⟨a, b, rfl⟩
  have hA1 : ∀ a ∈ (Py.joinChar '/' (segs ++ [rs])).head?, a ≠ '/' := by
    rw [hsr, List.cons_append,
      Py.head?_joinChar '/' s1 (rest ++ [rs]) (hseg s1 (by rw [hsr]; simp)).1]
    intro a ha
    exact fun hc =>
      (hseg s1 (by rw [hsr]; simp)).2.1 (hc ▸ List.mem_of_mem_head? ha)
  have hA2 : ∀ a ∈ (Py.joinChar '/' (segs ++ [rs])).getLast?, a ≠ '/' := by
    rw [Py.joinChar_concat rs hsegs,
      List.getLast?_append_of_ne_nil _ (by simp : ('/' :: rs : Str) ≠ []),
      show ('/' :: rs : Str) = ['/'] ++ rs from rfl,
      List.getLast?_append_of_ne_nil _ hrs]
    intro a ha
    exact fun hc => hrs2 (hc ▸ Py.mem_of_getLast?_mem ha)
  have hstrip : Py.stripChar '/'
      ('/' :: (Py.joinChar '/' (segs ++ [rs]) ++ (if trail then ['/'] else [])))
      = Py.joinChar '/' (segs ++ [rs]) := by
    rw [Py.stripChar_cons_sep]
    cases trail with
    | false => simpa using Py.stripChar_eq_self hA1 hA2
    | true => simpa using Py.stripChar_wrap hA1 hA2
  have hsplit : Py.splitChar '/' (Py.joinChar '/' (segs ++ [out])) = segs ++ [out] := by
    apply Py.splitChar_joinChar (by simp)
    intro s hs x hx
    rcases List.mem_append.mp hs with h | h
    · exact fun hc => (hseg s h).2.1 (hc ▸ hx)
    · have heq : s = out := by simpa using h
      exact fun hc => hout2 (hc ▸ (heq ▸ hx))
  have hlen : 2 ≤ (segs ++ [out]).length := by
    rw [hsr]
    simp [List.length_append]
  have hkey := parse_gitlab_eval hstrip hP2 hsplit hlen
  have hgl : (segs ++ [out]).getLastD [] = out := by
    rw [List.getLastD_eq_getLast?, List.getLast?_concat]
    rfl
  cases https with
  | true =>
    show (parse_repo_url ("https://gitlab.com/".toList ++
        (Py.joinChar '/' (segs ++ [rs]) ++ (if trail then ['/'] else [])))).map
        (fun r => (r.host, r.owner, r.repo)) = _
    rw [hkey, show ((segs ++ [out]).dropLast : List Str) = segs from List.dropLast_concat,
      hgl]
    rfl
  | false =>
    show (parse_repo_url ("http://gitlab.com/".toList ++
        (Py.joinChar '/' (segs ++ [rs]) ++ (if trail then ['/'] else [])))).map
        (fun r => (r.host, r.owner, r.repo)) = _
    rw [parse_gitlab_http, hkey,
      show ((segs ++ [out]).dropLast : List Str) = segs from List.dropLast_concat, hgl]
    rfl

end Core

/-- Claim C1 counterexample: a trailing slash on an SSH reference changes
the core parser's (host, owner, repo) triple (the empty final segment shifts
owner and repo) and turns the streaming parser's match into a failure, so
the stability of the triple claimed for all accepted references fails. -/
theorem c1_counterexample :
    ((Core.parse_repo_url ("git@gitlab.com:owner/repo".toList)).map
        (fun r => (r.host, r.owner, r.repo)) ≠
      (Core.parse_repo_url ("git@gitlab.com:owner/repo/".toList)).map
        (fun r => (r.host, r.owner, r.repo))) ∧
    ((Main.parse_repo_url ("git@gitlab.com:owner/repo".toList)).map
        (fun r => (r.host, r.owner, r.repo)) ≠
      (Main.parse_repo_url ("git@gitlab.com:owner/repo/".toList)).map
        (fun r => (r.host, r.owner, r.repo))) := by decide

/-- Claim C1 (amended): over gitlab.com web URLs built from nested slash-free
owner segments and a clean final repo segment, both parsers produce the
(host, owner, repo) triple (gitlab.com, the joined owner segments, the repo
segment) for either scheme, with or without a dot-git suffix, and with or
without a trailing slash, so the triple is stable under those variations on
this family; in particular the spec's example pair yields identical host,
owner and repo fields. -/
theorem c1_gitlab_web_triple_stable (segs : List Str) (repo : Str)
    (https git trail : Bool)
    (hsegs : segs ≠ [])
    (hseg : ∀ s ∈ segs, s ≠ [] ∧ '/' ∉ s ∧ s ≠ "tree".toList ∧ s ≠ "-".toList)
    (hr1 : repo ≠ []) (hr2 : '/' ∉ repo)
    (hr3 : Py.endswith (".git".toList) repo = false)
    (hr4 : repo ≠ "tree".toList) (hr5 : repo ≠ "-".toList) :
    (Main.parse_repo_url (Urls.gitlabUrl https git trail segs repo)).map
        (fun r => (r.host, r.owner, r.repo))
      = some ("gitlab.com".toList, Py.joinChar '/' segs, repo) ∧
    (Core.parse_repo_url (Urls.gitlabUrl https git trail segs repo)).map
        (fun r => (r.host, r.owner, r.repo))
      = some ("gitlab.com".toList, Py.joinChar '/' segs, repo) := by
  have hurl : Urls.gitlabUrl https git trail segs repo
      = (if https then "https://".toList else "http://".toList) ++
        ("gitlab.com/".toList ++
          (Py.joinChar '/' (segs ++ [repo ++ (if git then ".git".toList else [])]) ++
            (if trail then ['/'] else []))) := rfl
  rw [hurl]
  cases git with
  | false =>
    have h0 : (repo ++ (if (false : Bool) = true then ".git".toList else []) : Str)
        = repo := by simp
    rw [h0]
    refine ⟨?_, ?_⟩
    · rw [Main.gitlab_family_main segs repo repo https trail hsegs hseg hr1 hr2 hr4 hr5
        (Main.stripGit_of_not_endswith hr3)]
      rfl
    · have hend : Py.endswith (".git".toList) (Py.joinChar '/' (segs ++ [repo])) = false := by
        rw [Py.joinChar_concat repo hsegs]
        exact Py.not_endswith_dotgit_boundary _ hr3
      refine Core.gitlab_family_core segs repo repo https trail hsegs hseg hr1 hr2 ?_ hr2
      rw [hend]
      simp
  | true =>
    have h0 : (repo ++ (if (true : Bool) = true then ".git".toList else []) : Str)
        = repo ++ ".git".toList := by simp
    rw [h0]
    have hrsne : (repo ++ ".git".toList : Str) ≠ [] := by simp
    have hrssl : '/' ∉ (repo ++ ".git".toList : Str) := by
      intro hc
      rcases List.mem_append.mp hc with h | h
      · exact hr2 h
      · rw [Py.dotgit_chars] at h
        simp at h
    have hrstree : (repo ++ ".git".toList : Str) ≠ "tree".toList := by
      intro hc
      have hlen := congrArg List.length hc
      rw [List.length_append,
        show (".git".toList : Str).length = 4 from rfl,
        show ("tree".toList : Str).length = 4 from rfl] at hlen
      exact hr1 (List.length_eq_zero.mp (by omega))
    have hrsdash : (repo ++ ".git".toList : Str) ≠ "-".toList := by
      intro hc
      have hlen := congrArg List.length hc
      rw [List.length_append,
        show (".git".toList : Str).length = 4 from rfl,
        show ("-".toList : Str).length = 1 from rfl] at hlen
      omega
    refine ⟨?_, ?_⟩
    · rw [Main.gitlab_family_main segs (repo ++ ".git".toList) repo https trail hsegs hseg
        hrsne hrssl hrstree hrsdash (Main.stripGit_concat hr1)]
      rfl
    · have hA : Py.joinChar '/' (segs ++ [repo ++ ".git".toList])
          = (Py.joinChar '/' segs ++ '/' :: repo) ++ ".git".toList := by
        rw [Py.joinChar_concat _ hsegs]
        simp
      have hend : Py.endswith (".git".toList)
          (Py.joinChar '/' (segs ++ [repo ++ ".git".toList])) = true := by
        rw [hA]
        exact Py.endswith_append_self _ _
      have hdrop : Py.dropRightN 4 ((Py.joinChar '/' segs ++ '/' :: repo) ++ ".git".toList)
          = Py.joinChar '/' segs ++ '/' :: repo :=
        Py.dropRightN_append _ _ rfl
      refine Core.gitlab_family_core segs (repo ++ ".git".toList) repo https trail hsegs hseg
        hrsne hrssl ?_ hr2
      rw [hend, if_pos rfl, hA, hdrop, Py.joinChar_concat repo hsegs]

/-- Claim C1 witness: the amended stability theorem instantiated on the
spec's example pair, the https dot-git trailing-slash URL and the plain http
URL over the nested owner g/sub and the repo named repo. -/
theorem c1_witness :
    (Main.parse_repo_url
        (Urls.gitlabUrl true true true ["g".toList, "sub".toList] ("repo".toList))).map
        (fun r => (r.host, r.owner, r.repo))
      = some ("gitlab.com".toList, Py.joinChar '/' ["g".toList, "sub".toList],
          "repo".toList) ∧
    (Core.parse_repo_url
        (Urls.gitlabUrl false false false ["g".toList, "sub".toList] ("repo".toList))).map
        (fun r => (r.host, r.owner, r.repo))
      = some ("gitlab.com".toList, Py.joinChar '/' ["g".toList, "sub".toList],
          "repo".toList) :=
  ⟨(c1_gitlab_web_triple_stable ["g".toList, "sub".toList] ("repo".toList) true true true
      (by decide) (by decide) (by decide) (by decide) (by decide) (by decide) (by decide)).1,
   (c1_gitlab_web_triple_stable ["g".toList, "sub".toList] ("repo".toList) false false false
      (by decide) (by decide) (by decide) (by decide) (by decide) (by decide) (by decide)).2⟩

/-- Claim C2: the reconciliation classification is a partition of the union
of the two catalogs' key sets: the matched, left-only and right-only sets
cover the union and are pairwise disjoint, for any input catalogs including
empty ones. -/
theorem c2_reconcile_partition (left right : Finset String) :
    ((Recon.reconcile left right).1 ∪ (Recon.reconcile left right).2.1 ∪
        (Recon.reconcile left right).2.2 = left ∪ right) ∧
    Disjoint (Recon.reconcile left right).1 (Recon.reconcile left right).2.1 ∧
    Disjoint (Recon.reconcile left right).1 (Recon.reconcile left right).2.2 ∧
    Disjoint (Recon.reconcile left right).2.1 (Recon.reconcile left right).2.2 := by
  refine ⟨?_, ?_, ?_, ?_⟩
  · ext a
    simp only [Recon.reconcile, Finset.mem_union, Finset.mem_inter, Finset.mem_sdiff]
    tauto
  · simp only [Recon.reconcile, Finset.disjoint_left, Finset.mem_inter, Finset.mem_sdiff]
    tauto
  · simp only [Recon.reconcile, Finset.disjoint_left, Finset.mem_inter, Finset.mem_sdiff]
    tauto
  · simp only [Recon.reconcile, Finset.disjoint_left, Finset.mem_sdiff]
    tauto

/-- Claim C4 counterexample: a server error status 500 is not surfaced: the
exception the try block raises is caught and both implementations report
exists = false, exactly as for a not-found status. -/
theorem c4_counterexample :
    Main.check_file_exists_of_status 500 = false ∧
    Main.check_file_exists_try 500 = Except.error 500 ∧
    Core.check_file_exists_of_status 500 = false :=
  ⟨rfl, rfl, rfl⟩

/-- Claim C4 (amended): both existence checks return the flag status equals
200, so a not-found status yields false but every other non-success status
yields false as well rather than a caller-visible error; in the streaming
implementation the exception raised inside the try block for any other
status of 400 or above is caught and converted to false. -/
theorem c4_exists_flag_is_status_200 (status : Nat) :
    (Main.check_file_exists_of_status status = (status == 200) ∧
     Core.check_file_exists_of_status status = (status == 200)) ∧
    (400 ≤ status → status ≠ 404 → status ≠ 200 →
      Main.check_file_exists_try status = Except.error status) := by
  constructor
  · refine ⟨?_, rfl⟩
    unfold Main.check_file_exists_of_status Main.check_file_exists_try
    cases h1 : (status == 200) with
    | true => rfl
    | false =>
      cases h2 : (status == 404) with
      | true => rfl
      | false =>
        by_cases h3 : 400 ≤ status
        · rw [if_pos h3]
          rfl
        · rw [if_neg h3]
          rfl
  · intro h3 h4 h2
    unfold Main.check_file_exists_try
    rw [if_neg (by simpa using h2), if_neg (by simpa using h4), if_pos h3]

/-- Claim C4 witness: the amended theorem at status 500, a non-success
status that is neither success nor not-found. -/
theorem c4_witness :
    (Main.check_file_exists_of_status 500 = (500 == 200) ∧
     Core.check_file_exists_of_status 500 = (500 == 200)) ∧
    Main.check_file_exists_try 500 = Except.error 500 :=
  ⟨(c4_exists_flag_is_status_200 500).1,
   (c4_exists_flag_is_status_200 500).2 (by decide) (by decide) (by decide)⟩

/-- Claim C9: refuted by the streaming parser as written: the SSH branch
assigns the platform git, which is outside the enumeration gitlab, github,
bitbucket, local, unknown, because both arms of the conditional expression
on line 459 of snyk_sca_validator.py are the string git. -/
theorem c9_ssh_platform_outside_enum :
    (Main.parse_repo_url ("git@gitlab.com:owner/repo.git".toList)).map
        (fun r => r.platform) = some ("git".toList) ∧
    ∀ p ∈ ["gitlab".toList, "github".toList, "bitbucket".toList,
        "local".toList, "unknown".toList], ("git".toList : Str) ≠ p := by
  decide

/-- Claim C3 counterexample: on the three-project scenario the detector does
not collapse all three into one group: the normalized key of proj:../x/../a
is ../a, not the key a shared by proj:./a and proj:a, so the group of a has
two members and only one stale record is produced instead of the two a
three-member group would yield. -/
theorem c3_counterexample :
    Py.normpath (Py.stripWs (Py.afterChar ':' (Examples.dupP3.name)))
      ≠ Py.normpath (Py.stripWs (Py.afterChar ':' (Examples.dupP1.name))) ∧
    (Core.detect_duplicate_projects_by_name_pattern
        [Examples.dupP1, Examples.dupP2, Examples.dupP3]).length ≠ 2 := by
  decide

/-- Claim C3 (amended): on the three-project scenario the names proj:./a and
proj:a normalize to the same key a and collapse into one duplicate group,
while proj:../x/../a normalizes to ../a and stays alone; within the merged
group exactly the member that is not the newest is flagged stale, with a
back-reference to the newest member's id, so the detector returns exactly
the record flagging the oldest project p1 as a duplicate of p2. -/
theorem c3_duplicate_groups :
    Py.normpath (Py.stripWs (Py.afterChar ':' (Examples.dupP1.name))) = "a".toList ∧
    Py.normpath (Py.stripWs (Py.afterChar ':' (Examples.dupP2.name))) = "a".toList ∧
    Py.normpath (Py.stripWs (Py.afterChar ':' (Examples.dupP3.name))) = "../a".toList ∧
    Core.detect_duplicate_projects_by_name_pattern
        [Examples.dupP1, Examples.dupP2, Examples.dupP3] = [Examples.dupStale1] := by
  decide

namespace Main

theorem get_organizations_run_cons (r : PageResp) (rest : List PageResp) (acc : List Str) :
    get_organizations_run (r :: rest) acc
      = if 400 ≤ r.status then Except.error r.status
        else if r.next then get_organizations_run rest (acc ++ r.data)
        else Except.ok (acc ++ r.data) := rfl

theorem get_targets_run_cons (r : PageResp) (rest : List PageResp) (acc : List Str) :
    get_targets_with_version_run (r :: rest) acc
      = if r.status == 404 || r.status == 403 || r.status == 401 then Except.ok none
        else if 400 ≤ r.status then Except.error r.status
        else if r.next then get_targets_with_version_run rest (acc ++ r.data)
        else Except.ok (some (acc ++ r.data)) := rfl

end Main

/-- Claim C6 counterexample: a failure on the second page of a two-page
organizations fetch makes the run raise, discarding the first page's items
instead of returning them. -/
theorem c6_counterexample :
    Main.get_organizations_run
        [{ status := 200, data := ["o1".toList], next := true }
        , { status := 500, data := [], next := false }] [] = Except.error 500 ∧
    Main.get_organizations_run
        [{ status := 200, data := ["o1".toList], next := true }
        , { status := 500, data := [], next := false }] [] ≠ Except.ok ["o1".toList] := by
  refine ⟨rfl, fun h => ?_⟩
  have h2 : (Except.error 500 : Except Nat (List Str)) = Except.ok ["o1".toList] :=
    Eq.trans (by rfl) h
  exact Except.noConfusion h2

/-- Claim C6 (amended): there is no transient-retry logic, and when any page
request of a multi-page fetch fails with a status of 400 or above (outside
the 404, 403, 401 family the targets loop maps to None), both pagination
loops propagate the exception, so the items accumulated from the pages
already fetched are discarded rather than returned. -/
theorem c6_page_failure_discards (pages : List Main.PageResp) (r : Main.PageResp)
    (acc : List Str)
    (hok : ∀ p ∈ pages, p.status < 400 ∧ p.next = true)
    (hbad : 400 ≤ r.status)
    (hbad2 : r.status ≠ 404 ∧ r.status ≠ 403 ∧ r.status ≠ 401) :
    Main.get_organizations_run (pages ++ [r]) acc = Except.error r.status ∧
    Main.get_targets_with_version_run (pages ++ [r]) acc = Except.error r.status := by
  induction pages generalizing acc with
  | nil =>
    have hr4 : (r.status == 404 || r.status == 403 || r.status == 401) = false := by
      simp only [Bool.or_eq_false_iff, beq_eq_false_iff_ne]
      exact ⟨⟨hbad2.1, hbad2.2.1⟩, hbad2.2.2⟩
    constructor
    · rw [List.nil_append, Main.get_organizations_run_cons, if_pos hbad]
    · rw [List.nil_append, Main.get_targets_run_cons, hr4]
      simp only [Bool.false_eq_true, if_false]
      rw [if_pos hbad]
  | cons p ps ih =>
    have hp := hok p (by simp)
    have hp4 : (p.status == 404 || p.status == 403 || p.status == 401) = false := by
      simp only [Bool.or_eq_false_iff, beq_eq_false_iff_ne]
      omega
    have hrec := ih (acc ++ p.data) (fun q hq => hok q (by simp [hq]))
    constructor
    · rw [List.cons_append, Main.get_organizations_run_cons,
        if_neg (by omega : ¬ 400 ≤ p.status), hp.2, if_pos rfl]
      exact hrec.1
    · rw [List.cons_append, Main.get_targets_run_cons, hp4]
      simp only [Bool.false_eq_true, if_false]
      rw [if_neg (by omega : ¬ 400 ≤ p.status), hp.2, if_pos rfl]
      exact hrec.2

/-- Claim C6 witness: the discard theorem on a successful first page holding
one item followed by a failing second page. -/
theorem c6_witness :
    Main.get_organizations_run
        ([{ status := 200, data := ["o1".toList], next := true }] ++
          [{ status := 500, data := [], next := false }]) [] = Except.error 500 ∧
    Main.get_targets_with_version_run
        ([{ status := 200, data := ["o1".toList], next := true }] ++
          [{ status := 500, data := [], next := false }]) [] = Except.error 500 :=
  c6_page_failure_discards [{ status := 200, data := ["o1".toList], next := true }]
    { status := 500, data := [], next := false } []
    (by decide) (by decide) (by decide)

namespace Main

theorem targets_version_loop_cons (api : Str → List PageResp) (v : Str) (rest : List Str) :
    targets_version_loop api (v :: rest)
      = match get_targets_with_version_run (api v) [] with
        | Except.ok (some ts) => ts
        | Except.ok none => targets_version_loop api rest
        | Except.error _ =>
          match rest with
          | [] => []
          | _ => targets_version_loop api rest := rfl

end Main

namespace Core

theorem core_targets_loop_cons (api : Str → Resp) (v : Str) (rest : List Str) :
    core_targets_loop api (v :: rest)
      = match get_targets_with_version (api v) with
        | some ts => ts
        | none => core_targets_loop api rest := rfl

end Core

/-- Claim C5: when the first API version of the fallback list fails with a
404 (or 403 or 401) and a later version succeeds, get_targets_for_org in
both implementations returns the successful version's full target list, and
the earlier failure is returned as None inside the loop rather than raised
as a run-level error. -/
theorem c5_version_fallback (api : Str → List Main.PageResp)
    (capi : Str → Core.Resp) (version : Str) (ts : List Str) (pA : Main.PageResp)
    (hA : api version = [pA])
    (hA404 : pA.status = 404 ∨ pA.status = 403 ∨ pA.status = 401)
    (hB : Main.get_targets_with_version_run (api ("2023-05-29".toList)) []
      = Except.ok (some ts))
    (hcA : (capi ("2024-10-15".toList)).status = 404)
    (hcB : (capi ("2024-09-04".toList)).status = 200) :
    Main.get_targets_for_org api version = ts ∧
    Main.get_targets_with_version_run (api version) [] = Except.ok none ∧
    Core.get_targets_for_org true capi = (capi ("2024-09-04".toList)).data := by
  have hr4 : (pA.status == 404 || pA.status == 403 || pA.status == 401) = true := by
    rcases hA404 with h | h | h <;> simp [h]
  have hnone : Main.get_targets_with_version_run (api version) [] = Except.ok none := by
    rw [hA, Main.get_targets_run_cons, hr4]
    rfl
  refine ⟨?_, hnone, ?_⟩
  · show Main.targets_version_loop api (Main.api_versions version) = ts
    rw [show Main.api_versions version
        = version :: ("2023-05-29".toList ::
            ["2023-06-12".toList, "2023-08-14".toList, "2023-10-16".toList]) from rfl,
      Main.targets_version_loop_cons, hnone]
    show Main.targets_version_loop api ("2023-05-29".toList ::
        ["2023-06-12".toList, "2023-08-14".toList, "2023-10-16".toList]) = ts
    rw [Main.targets_version_loop_cons, hB]
  · show Core.core_targets_loop capi Core.core_api_versions
      = (capi ("2024-09-04".toList)).data
    rw [show Core.core_api_versions
        = "2024-10-15".toList ::
            ("2024-09-04".toList :: ["2023-05-29".toList, "2023-06-18".toList]) from rfl,
      Core.core_targets_loop_cons]
    have e1 : Core.get_targets_with_version (capi ("2024-10-15".toList)) = none := by
      unfold Core.get_targets_with_version
      rw [hcA]
      rfl
    rw [e1]
    show Core.core_targets_loop capi
        ("2024-09-04".toList :: ["2023-05-29".toList, "2023-06-18".toList])
      = (capi ("2024-09-04".toList)).data
    rw [Core.core_targets_loop_cons]
    have e2 : Core.get_targets_with_version (capi ("2024-09-04".toList))
        = some ((capi ("2024-09-04".toList)).data) := by
      unfold Core.get_targets_with_version
      rw [hcB]
      rfl
    rw [e2]

/-- Claim C5 witness: the fallback theorem on a concrete endpoint that
serves 404 for the first version and a one-target page for every other. -/
theorem c5_witness :
    Main.get_targets_for_org
        (fun v => if v == "2024-10-15".toList
          then [{ status := 404, data := [], next := false }]
          else [{ status := 200, data := ["tgt".toList], next := false }])
        ("2024-10-15".toList) = ["tgt".toList] :=
  (c5_version_fallback
    (fun v => if v == "2024-10-15".toList
      then [{ status := 404, data := [], next := false }]
      else [{ status := 200, data := ["tgt".toList], next := false }])
    (fun v => if v == "2024-10-15".toList
      then { status := 404, data := [] }
      else { status := 200, data := ["ct".toList] })
    ("2024-10-15".toList) ["tgt".toList] { status := 404, data := [], next := false }
    (by rfl) (Or.inl rfl) (by rfl) (by rfl) (by rfl)).1

namespace Py

theorem containsSub_singleton_eq_false {c : Char} {s : Str} (h : c ∉ s) :
    containsSub [c] s = false := by
  induction s with
  | nil => rfl
  | cons x xs ih =>
    show (startswith [c] (x :: xs) || containsSub [c] xs) = false
    rw [ih (fun hc => h (List.mem_cons_of_mem x hc))]
    show (((c == x) && startswith [] xs) || false) = false
    rw [show (c == x) = false from beq_eq_false_iff_ne.mpr
      (fun hc => h (hc ▸ List.mem_cons_self x xs))]
    rfl

end Py

/-- Claim C7 counterexample: the core implementation re-prefixes the root
even when the file path already starts with it, and the streaming
implementation joins without normalizing backslash separators, so neither
resolution satisfies the claimed combination of behaviors. -/
theorem c7_counterexample :
    Py.startswith ("app".toList) ("app/requirements.txt".toList) = true ∧
    (Core.validate_file (fun _ => true) ("app/requirements.txt".toList)
        ("app".toList)).file_path = "app/app/requirements.txt".toList ∧
    (Main.validate_file (fun _ => true) ("a\\b.txt".toList)
        ("root".toList)).full_path = "root/a\\b.txt".toList := by
  decide

/-- Claim C7 (amended): when the file path is relative, does not start with
the root, the root is nonempty without a trailing slash, and neither string
contains a backslash, both implementations resolve the checked path to the
root, a slash and the file path, with slashes stripped on both ends, and
return that resolved path next to an existence flag obtained by checking
exactly that path; the core implementation applies the same join even when
the file path already starts with the root, and the streaming implementation
performs no backslash normalization. -/
theorem c7_resolved_path (check : Str → Bool) (fp root : Str)
    (hb1 : '\\' ∉ root) (hb2 : '\\' ∉ fp)
    (habs : Py.startswith ['/'] fp = false)
    (hroot : root ≠ [])
    (hends : Py.endswith ['/'] root = false)
    (hsw : Py.startswith root fp = false) :
    (Main.validate_file check fp root).full_path = Py.stripChar '/' (root ++ '/' :: fp) ∧
    (Core.validate_file check fp root).file_path = Py.stripChar '/' (root ++ '/' :: fp) ∧
    (Main.validate_file check fp root).exists_in_gitlab
      = check (Py.stripChar '/' (root ++ '/' :: fp)) ∧
    (Core.validate_file check fp root).file_exists
      = check (Py.stripChar '/' (root ++ '/' :: fp)) := by
  have h0 : (root == ([] : Str)) = false := by simpa using hroot
  have hjoin : Py.posixJoin root fp = root ++ '/' :: fp := by
    unfold Py.posixJoin
    rw [habs, h0, hends]
    rfl
  have hcontains : Py.containsSub ['\\'] (root ++ '/' :: fp) = false := by
    apply Py.containsSub_singleton_eq_false
    intro hc
    rcases List.mem_append.mp hc with h | h
    · exact hb1 h
    · rcases List.mem_cons.mp h with h | h
      · exact absurd h (by decide)
      · exact hb2 h
  have hcore : Core.validate_file check fp root
      = { file_path := Py.stripChar '/' (root ++ '/' :: fp)
        , file_exists := check (Py.stripChar '/' (root ++ '/' :: fp)), root := root } := by
    unfold Core.validate_file
    rw [hjoin, Py.replaceAll_of_not_contains hcontains]
  have hcond : (root != [] && !Py.startswith root fp) = true := by
    simp only [bne, hsw, h0]
    rfl
  have hmain : Main.validate_file check fp root
      = { file_path := fp, full_path := Py.stripChar '/' (root ++ '/' :: fp)
        , exists_in_gitlab := check (Py.stripChar '/' (root ++ '/' :: fp)) } := by
    unfold Main.validate_file
    rw [if_pos hcond]
  rw [hmain, hcore]
  exact ⟨rfl, rfl, rfl, rfl⟩

/-- Claim C7 witness: the amended resolution theorem on the root app and the
file path src/requirements.txt. -/
theorem c7_witness :
    (Main.validate_file (fun _ => true) ("src/requirements.txt".toList)
        ("app".toList)).full_path
      = Py.stripChar '/' ("app".toList ++ '/' :: "src/requirements.txt".toList) ∧
    (Core.validate_file (fun _ => true) ("src/requirements.txt".toList)
        ("app".toList)).file_path
      = Py.stripChar '/' ("app".toList ++ '/' :: "src/requirements.txt".toList) :=
  ⟨(c7_resolved_path (fun _ => true) ("src/requirements.txt".toList) ("app".toList)
      (by decide) (by decide) (by decide) (by decide) (by decide) (by decide)).1,
   (c7_resolved_path (fun _ => true) ("src/requirements.txt".toList) ("app".toList)
      (by decide) (by decide) (by decide) (by decide) (by decide) (by decide)).2.1⟩

namespace Py

theorem sep_mem_joinChar (c : Char) (p q : Str) (qs : List Str) :
    c ∈ joinChar c (p :: q :: qs) := by
  rw [joinChar_pair]
  simp

end Py

namespace Main

/-- The SSH regex rejects any reference whose path continues past the first
slash after the owner segment: the repo group excludes slashes and the
pattern is end-anchored. -/
theorem sshMatch_slash_in_rest (host own rest2 : Str)
    (hhne : host ≠ []) (hh : ∀ x ∈ host, x ≠ ':')
    (hown : own ≠ []) (hoc : '/' ∉ own) (hr : '/' ∈ rest2) :
    sshMatch ("git@".toList ++ (host ++ ':' :: (own ++ '/' :: rest2))) = none := by
  have e0 : (("git@".toList ++ (host ++ ':' :: (own ++ '/' :: rest2))) : Str).drop 4
      = host ++ ':' :: (own ++ '/' :: rest2) := by
    rw [show (4 : Nat) = ("git@".toList : Str).length from rfl]
    exact List.drop_left _ _
  have e1 : (host ++ ':' :: (own ++ '/' :: rest2)).takeWhile (fun x => x != ':') = host :=
    Py.takeWhile_append_cons _ (fun x hx => by simpa using hh x hx) (by simp)
  have e2 : (host ++ ':' :: (own ++ '/' :: rest2)).drop host.length
      = ':' :: (own ++ '/' :: rest2) := List.drop_left _ _
  have e3 : (host == ([] : Str)) = false := by simpa using hhne
  have e4 : (own ++ '/' :: rest2).takeWhile (fun x => x != '/') = own :=
    Py.takeWhile_append_cons _ (fun x hx => by
      simp only [bne_iff_ne]
      exact fun hc => hoc (hc ▸ hx)) (by simp)
  have e5 : (own ++ '/' :: rest2).drop own.length = '/' :: rest2 := List.drop_left _ _
  have e6 : (own == ([] : Str)) = false := by simpa using hown
  have e7 : (rest2 == ([] : Str)) = false := by simpa using List.ne_nil_of_mem hr
  have e8 : Py.containsChar '/' rest2 = true := by
    unfold Py.containsChar
    rw [List.any_eq_true]
    exact ⟨'/', hr, by simp⟩
  unfold sshMatch
  rw [if_pos (Py.startswith_self_append _ _)]
  simp only [e0, e1, e2, e3, e4, e5, e6, e7, e8, Bool.false_eq_true, if_false, if_true]

/-- When the SSH regex fails on a git-at reference, every later pattern of
the cascade fails too (they all require an http or https scheme), so the
parser returns None. -/
theorem parse_of_sshMatch_none {X : Str}
    (h : sshMatch ("git@".toList ++ X) = none) :
    parse_repo_url ("git@".toList ++ X) = none := by
  unfold parse_repo_url
  rw [h]
  rfl

end Main

namespace Core

/-- Evaluation of the core parser on a git-at reference: the dot-git and
git-at replacements followed by the colon split are supplied as one
hypothesis, the slash split of the path as another. -/
theorem parse_ssh_eval {X host path : Str} {pparts : List Str}
    (h2 : Py.splitChar ':' (Py.replaceAll (".git".toList) []
      (Py.replaceAll ("git@".toList) [] ("git@".toList ++ X))) = [host, path])
    (h3 : Py.splitChar '/' path = pparts)
    (hlen : 2 ≤ pparts.length) :
    parse_repo_url ("git@".toList ++ X)
      = some { platform :=
                 if Py.containsSub ("gitlab".toList) host then "gitlab".toList
                 else if Py.containsSub ("github".toList) host then "github".toList
                 else "bitbucket".toList
             , host := host, owner := Py.joinChar '/' pparts.dropLast
             , repo := pparts.getLastD [], url := "git@".toList ++ X } := by
  have e0 : (("git@".toList ++ X : Str) == []) = false := rfl
  have e1 : Py.startswith ("http://".toList) ("git@".toList ++ X) = false := rfl
  have e2 : Py.startswith ("git@".toList) ("git@".toList ++ X) = true :=
    Py.startswith_self_append _ _
  unfold parse_repo_url
  simp only [e0, e1, e2, Bool.false_eq_true, if_false, if_true, h2, h3]
  rw [if_pos hlen]

end Core

/-- Claim C8 counterexample: a nested group path makes the streaming
parser's end-anchored SSH regex fail outright, so the split-and-join
behavior claimed for every SSH reference does not hold of it. -/
theorem c8_counterexample :
    Main.parse_repo_url ("git@gitlab.com:group/sub/repo.git".toList) = none ∧
    (Core.parse_repo_url ("git@gitlab.com:group/sub/repo.git".toList)).map
        (fun r => (r.owner, r.repo))
      = some ("group/sub".toList, "repo".toList) := by
  decide

/-- Claim C8 (amended): on clean SSH references git-at host colon path, the
core parser splits on the colon and on the slashes, joins every path
segment but the last into the owner, supporting nested groups of any depth,
and strips a dot-git suffix from the final segment to get the repo; the
streaming parser's SSH regex instead accepts only a single-segment owner
and returns None whenever the owner part is nested. -/
theorem c8_ssh_split (host : Str) (pre : List Str) (rp : Str) (sfx : Str)
    (hhne : host ≠ []) (hh : ∀ x ∈ host, x ≠ ':')
    (hpre : pre ≠ [])
    (hseg : ∀ s ∈ pre ++ [rp], s ≠ [] ∧ '/' ∉ s ∧ ':' ∉ s)
    (hga : Py.containsSub ("git@".toList)
      (host ++ ':' :: (Py.joinChar '/' (pre ++ [rp]) ++ sfx)) = false)
    (hsfx : (sfx = [] ∧ Py.containsSub (".git".toList)
        (host ++ ':' :: Py.joinChar '/' (pre ++ [rp])) = false) ∨
      (sfx = ".git".toList ∧ Py.containsSub (".git".toList)
        ((host ++ ':' :: Py.joinChar '/' (pre ++ [rp])) ++ ".gi".toList) = false)) :
    (Core.parse_repo_url (Urls.sshUrl host (Py.joinChar '/' (pre ++ [rp])) sfx)).map
        (fun r => (r.host, r.owner, r.repo))
      = some (host, Py.joinChar '/' pre, rp) ∧
    (2 ≤ pre.length →
      Main.parse_repo_url (Urls.sshUrl host (Py.joinChar '/' (pre ++ [rp])) sfx)
        = none) := by
  constructor
  · have hga0 : Py.replaceAll ("git@".toList) []
        ("git@".toList ++ (host ++ ':' :: (Py.joinChar '/' (pre ++ [rp]) ++ sfx)))
        = host ++ ':' :: (Py.joinChar '/' (pre ++ [rp]) ++ sfx) := by
      rw [Py.gitat_chars] at hga ⊢
      rw [Py.replaceAll_cancel_head, List.nil_append]
      exact Py.replaceAll_of_not_contains hga
    have hdg0 : Py.replaceAll (".git".toList) []
        (host ++ ':' :: (Py.joinChar '/' (pre ++ [rp]) ++ sfx))
        = host ++ ':' :: Py.joinChar '/' (pre ++ [rp]) := by
      rcases hsfx with ⟨hs0, hdg⟩ | ⟨hs0, hdg⟩
      · rw [hs0, List.append_nil]
        exact Py.replaceAll_of_not_contains hdg
      · rw [hs0, show host ++ ':' :: (Py.joinChar '/' (pre ++ [rp]) ++ ".git".toList)
            = (host ++ ':' :: Py.joinChar '/' (pre ++ [rp])) ++ ".git".toList from by simp]
        rw [Py.dotgit_chars] at hdg ⊢
        rw [Py.dotgi_chars] at hdg
        exact Py.replaceAll_dotgit_concat hdg
    have hJc : ∀ x ∈ Py.joinChar '/' (pre ++ [rp]), x ≠ ':' := by
      intro x hx
      rcases Py.mem_joinChar hx with h | ⟨s, hs, hxs⟩
      · subst h
        decide
      · exact fun hc => (hseg s hs).2.2 (hc ▸ hxs)
    have h2 : Py.splitChar ':' (host ++ ':' :: Py.joinChar '/' (pre ++ [rp]))
        = [host, Py.joinChar '/' (pre ++ [rp])] := by
      rw [Py.splitChar_append_cons _ hh, Py.splitChar_of_not_mem hJc]
    have h3 : Py.splitChar '/' (Py.joinChar '/' (pre ++ [rp])) = pre ++ [rp] :=
      Py.splitChar_joinChar (by simp)
        (fun s hs x hx hc => (hseg s hs).2.1 (hc ▸ hx))
    have hlen : 2 ≤ (pre ++ [rp]).length := by
      have := List.length_pos.mpr hpre
      simp only [List.length_append, List.length_cons, List.length_nil]
      omega
    have h2full : Py.splitChar ':' (Py.replaceAll (".git".toList) []
        (Py.replaceAll ("git@".toList) []
          ("git@".toList ++ (host ++ ':' :: (Py.joinChar '/' (pre ++ [rp]) ++ sfx)))))
        = [host, Py.joinChar '/' (pre ++ [rp])] := by
      rw [hga0, hdg0, h2]
    have hkey := Core.parse_ssh_eval h2full h3 hlen
    show (Core.parse_repo_url ("git@".toList ++
        (host ++ ':' :: (Py.joinChar '/' (pre ++ [rp]) ++ sfx)))).map
        (fun r => (r.host, r.owner, r.repo)) = _
    rw [hkey, show ((pre ++ [rp]).dropLast : List Str) = pre from List.dropLast_concat,
      show ((pre ++ [rp]).getLastD [] : Str) = rp from by
        rw [List.getLastD_eq_getLast?, List.getLast?_concat]
        rfl]
    rfl
  · intro hlen3
    obtain ⟨p1, p2, rest, hpp⟩ : ∃ p1 p2 rest, pre = p1 :: p2 :: rest := by
      cases pre with
      | nil => exact absurd hlen3 (by simp)
      | cons a b =>
        cases b with
        | nil => exact absurd hlen3 (by simp)
        | cons c d => exact ⟨a, c, d, rfl⟩
    subst hpp
    have hJ : Py.joinChar '/' ((p1 :: p2 :: rest) ++ [rp])
        = p1 ++ '/' :: Py.joinChar '/' (p2 :: (rest ++ [rp])) := by
      rw [show ((p1 :: p2 :: rest) ++ [rp] : List Str)
          = p1 :: p2 :: (rest ++ [rp]) from by simp]
      exact Py.joinChar_pair '/' p1 p2 (rest ++ [rp])
    have hslash : '/' ∈ Py.joinChar '/' (p2 :: (rest ++ [rp])) ++ sfx := by
      apply List.mem_append_left
      rcases rest with _ | ⟨r3, rs⟩
      · exact Py.sep_mem_joinChar '/' p2 rp []
      · exact Py.sep_mem_joinChar '/' p2 r3 (rs ++ [rp])
    show Main.parse_repo_url ("git@".toList ++
        (host ++ ':' :: (Py.joinChar '/' ((p1 :: p2 :: rest) ++ [rp]) ++ sfx))) = none
    apply Main.parse_of_sshMatch_none
    rw [show host ++ ':' :: (Py.joinChar '/' ((p1 :: p2 :: rest) ++ [rp]) ++ sfx)
        = host ++ ':' :: (p1 ++ '/' :: (Py.joinChar '/' (p2 :: (rest ++ [rp])) ++ sfx))
        from by rw [hJ]; simp]
    exact Main.sshMatch_slash_in_rest host p1
      (Py.joinChar '/' (p2 :: (rest ++ [rp])) ++ sfx) hhne hh
      (hseg p1 (by simp)).1 (hseg p1 (by simp)).2.1 hslash

/-- Claim C8 witness: the split theorem on the nested reference with host
gitlab.com, owner group/sub and repo repo plus a dot-git suffix. -/
theorem c8_witness :
    (Core.parse_repo_url (Urls.sshUrl ("gitlab.com".toList)
        (Py.joinChar '/' (["group".toList, "sub".toList] ++ ["repo".toList]))
        (".git".toList))).map (fun r => (r.host, r.owner, r.repo))
      = some ("gitlab.com".toList,
          Py.joinChar '/' ["group".toList, "sub".toList], "repo".toList) ∧
    Main.parse_repo_url (Urls.sshUrl ("gitlab.com".toList)
        (Py.joinChar '/' (["group".toList, "sub".toList] ++ ["repo".toList]))
        (".git".toList)) = none :=
  ⟨(c8_ssh_split ("gitlab.com".toList) ["group".toList, "sub".toList] ("repo".toList)
      (".git".toList) (by decide) (by decide) (by decide) (by decide) (by decide)
      (by decide)).1,
   (c8_ssh_split ("gitlab.com".toList) ["group".toList, "sub".toList] ("repo".toList)
      (".git".toList) (by decide) (by decide) (by decide) (by decide) (by decide)
      (by decide)).2 (by decide)⟩

namespace Main

/-- Loop invariant of validate_project: each step adds one to
files_validated and exactly one of files_present, files_missing. -/
theorem foldl_projectStep_inv (check : Str → Bool) (root_dir : Str) (fps : List Str)
    (init : ProjectResult)
    (h : init.files_validated = init.files_present + init.files_missing) :
    (fps.foldl (projectStep check root_dir) init).files_validated
      = (fps.foldl (projectStep check root_dir) init).files_present
        + (fps.foldl (projectStep check root_dir) init).files_missing := by
  induction fps generalizing init with
  | nil => exact h
  | cons fp rest ih =>
    rw [List.foldl_cons]
    apply ih
    unfold projectStep
    cases hb : (validate_file check fp root_dir).exists_in_gitlab <;>
      simp [hb, h] <;> omega

/-- Loop invariant of validate_target: the counters stay the sums of the
appended project results' counters, and projects_processed their number. -/
theorem foldl_targetStep_inv (check : Str → Bool) (ds : List (Option (Str × List Str)))
    (init : TargetResult)
    (h1 : init.files_validated = (init.projects.map ProjectResult.files_validated).sum)
    (h2 : init.files_missing = (init.projects.map ProjectResult.files_missing).sum)
    (h3 : init.files_present = (init.projects.map ProjectResult.files_present).sum)
    (h4 : init.projects_processed = init.projects.length) :
    (ds.foldl (targetStep check) init).files_validated
      = (((ds.foldl (targetStep check) init).projects.map
          ProjectResult.files_validated).sum) ∧
    (ds.foldl (targetStep check) init).files_missing
      = (((ds.foldl (targetStep check) init).projects.map
          ProjectResult.files_missing).sum) ∧
    (ds.foldl (targetStep check) init).files_present
      = (((ds.foldl (targetStep check) init).projects.map
          ProjectResult.files_present).sum) ∧
    (ds.foldl (targetStep check) init).projects_processed
      = (ds.foldl (targetStep check) init).projects.length := by
  induction ds generalizing init with
  | nil => exact ⟨h1, h2, h3, h4⟩
  | cons d rest ih =>
    rw [List.foldl_cons]
    apply ih
    · simp [targetStep, h1]
    · simp [targetStep, h2]
    · simp [targetStep, h3]
    · simp [targetStep, h4]

/-- Loop invariant of validate_organization: the counters stay the sums of
the appended target results' counters, and targets_processed their number. -/
theorem foldl_orgStep_inv (check : Str → Bool) (ts : List TargetInput) (init : OrgResult)
    (h1 : init.files_validated = (init.targets.map TargetResult.files_validated).sum)
    (h2 : init.files_missing = (init.targets.map TargetResult.files_missing).sum)
    (h3 : init.files_present = (init.targets.map TargetResult.files_present).sum)
    (h4 : init.projects_processed
      = (init.targets.map TargetResult.projects_processed).sum)
    (h5 : init.targets_processed = init.targets.length) :
    (ts.foldl (orgStep check) init).files_validated
      = (((ts.foldl (orgStep check) init).targets.map
          TargetResult.files_validated).sum) ∧
    (ts.foldl (orgStep check) init).files_missing
      = (((ts.foldl (orgStep check) init).targets.map
          TargetResult.files_missing).sum) ∧
    (ts.foldl (orgStep check) init).files_present
      = (((ts.foldl (orgStep check) init).targets.map
          TargetResult.files_present).sum) ∧
    (ts.foldl (orgStep check) init).projects_processed
      = (((ts.foldl (orgStep check) init).targets.map
          TargetResult.projects_processed).sum) ∧
    (ts.foldl (orgStep check) init).targets_processed
      = (ts.foldl (orgStep check) init).targets.length := by
  induction ts generalizing init with
  | nil => exact ⟨h1, h2, h3, h4, h5⟩
  | cons t rest ih =>
    rw [List.foldl_cons]
    apply ih
    · simp [orgStep, h1]
    · simp [orgStep, h2]
    · simp [orgStep, h3]
    · simp [orgStep, h4]
    · simp [orgStep, h5]

end Main

/-- Claim C10: each project result's files_validated is files_present plus
files_missing, each target result's three counters are the sums of the
corresponding counters over its stored project results, and each
organization result's counters are the sums over its stored target results
(with the processed counters equal to the stored list lengths). -/
theorem c10_counter_aggregation (check : Str → Bool) (details : Option (Str × List Str))
    (parsed : Bool) (projects : List (Option (Str × List Str)))
    (accessible : Bool) (targets : List Main.TargetInput) :
    ((Main.validate_project check details).files_validated
      = (Main.validate_project check details).files_present
        + (Main.validate_project check details).files_missing) ∧
    ((Main.validate_target check parsed projects).files_validated
      = (((Main.validate_target check parsed projects).projects.map
          Main.ProjectResult.files_validated).sum) ∧
     (Main.validate_target check parsed projects).files_missing
      = (((Main.validate_target check parsed projects).projects.map
          Main.ProjectResult.files_missing).sum) ∧
     (Main.validate_target check parsed projects).files_present
      = (((Main.validate_target check parsed projects).projects.map
          Main.ProjectResult.files_present).sum)) ∧
    ((Main.validate_organization check accessible targets).files_validated
      = (((Main.validate_organization check accessible targets).targets.map
          Main.TargetResult.files_validated).sum) ∧
     (Main.validate_organization check accessible targets).files_missing
      = (((Main.validate_organization check accessible targets).targets.map
          Main.TargetResult.files_missing).sum) ∧
     (Main.validate_organization check accessible targets).files_present
      = (((Main.validate_organization check accessible targets).targets.map
          Main.TargetResult.files_present).sum) ∧
     (Main.validate_organization check accessible targets).projects_processed
      = (((Main.validate_organization check accessible targets).targets.map
          Main.TargetResult.projects_processed).sum)) := by
  refine ⟨?_, ?_, ?_⟩
  · cases details with
    | none => rfl
    | some d =>
      obtain ⟨root_dir, fps⟩ := d
      exact Main.foldl_projectStep_inv check root_dir fps
        { files_validated := 0, files_missing := 0, files_present := 0, files := [] } rfl
  · cases parsed with
    | false => exact ⟨rfl, rfl, rfl⟩
    | true =>
      have h := Main.foldl_targetStep_inv check projects
        { projects_processed := 0, files_validated := 0, files_missing := 0
        , files_present := 0, projects := [], parse_error := false } rfl rfl rfl rfl
      exact ⟨h.1, h.2.1, h.2.2.1⟩
  · cases accessible with
    | false => exact ⟨rfl, rfl, rfl, rfl⟩
    | true =>
      have h := Main.foldl_orgStep_inv check targets
        { targets_processed := 0, projects_processed := 0, files_validated := 0
        , files_missing := 0, files_present := 0, targets := [], accessible := true }
        rfl rfl rfl rfl rfl
      exact ⟨h.1, h.2.1, h.2.2.1, h.2.2.2.1⟩
